import Mathlib

/-!
Verification of the `CS280::AVLmap` ordered key-value container
(`src/avl-map.h`, `src/avl-map.cpp`).

The C++ class is a template over `KEY_TYPE` and `VALUE_TYPE`; the only
operations it performs on keys are `==`, `<` and `>`, and on values
default construction and assignment.  The embedding instantiates both with
`Int` (default value `0`), which is fully faithful for every claim here.

A heap node `Node { key, value, height, parent, left, right }` is embedded
as an inductive tree.  The `parent` back-pointer is represented implicitly:
a node's position in the tree determines its parent, and the parent-pointer
walks of the C++ code (`GetVisitedNodes`, `Node::increment`,
`Node::decrement`) are embedded as computations on root-to-node paths.
Allocation identity (which concrete heap object a node is) is modelled by
an `id : Nat` field stamped from a counter at creation; the C++ code never
reads it, and it lets us state which node object survives an erase.
The `balance` field of the C++ `Node` is declared but never read or
written after construction (always constructed with `b = 0`), so it is
omitted.
-/

namespace AVLVerify

/-- Direction of a child edge, used to describe root-to-node paths
(the implicit form of the C++ parent pointers). -/
inductive Dir where
  | L : Dir
  | R : Dir
deriving DecidableEq, Repr

/-- Embedding of `AVLmap::Node`: `nil` is the null pointer, and
`node key value height id left right` carries the stored fields.
`height` is the stored `int height` field exactly as the C++ writes it
(the code assigns it parent-relative values; see `UpdateSubtreeHeights`).
`id` models allocation identity and is invisible to the algorithms. -/
inductive Tree where
  | nil : Tree
  | node (key value height : Int) (id : Nat) (l r : Tree) : Tree
deriving DecidableEq, Repr

namespace Tree

/-- Left child (`node->left`), with `nil` for the null pointer. -/
def leftOf : Tree → Tree
  | nil => nil
  | node _ _ _ _ l _ => l

/-- Right child (`node->right`), with `nil` for the null pointer. -/
def rightOf : Tree → Tree
  | nil => nil
  | node _ _ _ _ _ r => r

/-- The stored `key` field of a node (`none` for the null pointer). -/
def keyOf : Tree → Option Int
  | nil => none
  | node k _ _ _ _ _ => some k

/-- The stored `height` field of a node (`none` for the null pointer). -/
def heightOf : Tree → Option Int
  | nil => none
  | node _ _ h _ _ _ => some h

/-- In-order list of the entries (key, value, id) of a tree.  This is the
abstract contents of the container; the C++ code stores it spread over
heap nodes. -/
def inorderE : Tree → List (Int × Int × Nat)
  | nil => []
  | node k v _ i l r => inorderE l ++ (k, v, i) :: inorderE r

/-- In-order list of keys. -/
def inorderKeys (t : Tree) : List Int := (inorderE t).map (·.1)

/-- In-order list of node ids (allocation identities). -/
def inorderIds (t : Tree) : List Nat := (inorderE t).map (·.2.2)

/-- Number of nodes in a tree. -/
def count : Tree → Nat
  | nil => 0
  | node _ _ _ _ l r => count l + 1 + count r

/-- Boolean `all keys satisfy p` over a subtree. -/
def allB (p : Int → Bool) : Tree → Bool
  | nil => true
  | node k _ _ _ l r => p k && allB p l && allB p r

/-- BST order predicate from the spec: at every node all keys of the left
subtree are smaller and all keys of the right subtree are larger than the
node's key (hence no duplicate keys). -/
def bstB : Tree → Bool
  | nil => true
  | node k _ _ _ l r =>
      allB (fun x => decide (x < k)) l && allB (fun x => decide (k < x)) r &&
      bstB l && bstB r

end Tree

open Tree

/-- Embedding of `AVLmap::GetSubtreeHeight`: the true height of a subtree,
`-1` for the null pointer and `1 + max` of the children otherwise.  The
C++ code recomputes this on demand and never reads the stored `height`
field here. -/
def GetSubtreeHeight : Tree → Int
  | Tree.nil => -1
  | Tree.node _ _ _ _ l r => 1 + max (GetSubtreeHeight l) (GetSubtreeHeight r)

/-- Embedding of `AVLmap::GetSubtreeBalance`: `-1` for the null pointer,
otherwise height of the left subtree minus height of the right subtree. -/
def GetSubtreeBalance : Tree → Int
  | Tree.nil => -1
  | Tree.node _ _ _ _ l r => GetSubtreeHeight l - GetSubtreeHeight r

/-- AVL balance predicate from the spec: at every node the true heights of
the two subtrees differ by at most 1 (with height of an absent child
`-1`, as computed by `GetSubtreeHeight`). -/
def avlB : Tree → Bool
  | Tree.nil => true
  | Tree.node _ _ _ _ l r =>
      decide ((GetSubtreeHeight l - GetSubtreeHeight r).natAbs ≤ 1) &&
      avlB l && avlB r

/-- The depth value `UpdateSubtreeHeights` assigns at a subtree root and
`InsertItem` stores in a new node: `parent ? parent->height + 1 : 0`,
where `pH` is the stored height of the parent (`none` for a null
parent). -/
def pHdepth : Option Int → Int
  | none => 0
  | some ph => ph + 1

/-- Embedding of `AVLmap::UpdateSubtreeHeights`: after a rotation the code
walks the rotated subtree in preorder and assigns
`subtree->height = subtree->parent ? subtree->parent->height + 1 : 0`.
Relative to the subtree root that is: assign `d` at the root (`d` being
`parent->height + 1`, or `0` when the subtree root is the tree root) and
`d+1` to its children, recursively. -/
def setDepths : Tree → Int → Tree
  | Tree.nil, _ => Tree.nil
  | Tree.node k v _ i l r, d => Tree.node k v d i (setDepths l (d + 1)) (setDepths r (d + 1))

/-- Embedding of `AVLmap::RotateRight` / `RotateRootRight` at a subtree:
promote the left child, transplant its right subtree, then run
`UpdateSubtreeHeights` over the new subtree with starting depth `d`
(`parent->height + 1`, or `0` for the root case `RotateRootRight`).
The C++ would dereference a null left child; that case is unreachable
(the caller only rotates right when the left subtree has true height
at least 1) and is embedded as the identity. -/
def rotRightD : Tree → Int → Tree
  | Tree.node k v h i (Tree.node lk lv lh li ll lr) r, d =>
      setDepths (Tree.node lk lv lh li ll (Tree.node k v h i lr r)) d
  | t, _ => t

/-- Embedding of `AVLmap::RotateLeft` / `RotateRootLeft`, mirror image of
`rotRightD`. -/
def rotLeftD : Tree → Int → Tree
  | Tree.node k v h i l (Tree.node rk rv rh ri rl rr), d =>
      setDepths (Tree.node rk rv rh ri (Tree.node k v h i l rl) rr) d
  | t, _ => t

/-- The kind of corrective rotation performed at a node (the four cases of
the decision block in `AVLmap::BalanceTree`). -/
inductive RotKind where
  | single_right : RotKind
  | double_left_right : RotKind
  | single_left : RotKind
  | double_right_left : RotKind
deriving DecidableEq, Repr

/-- The decision block of `AVLmap::BalanceTree` at the popped node `y`
(lines 520-558 of avl-map.cpp): compute the true heights of the two
subtrees; if they differ by at most 1 do nothing; otherwise perform a
single or double rotation chosen by comparing the grandchild heights.
`pH` is the stored height of `y`'s parent (`none` when `y` is the root),
which fixes the starting depth of the `UpdateSubtreeHeights` pass.
Returns the new subtree and which rotation fired, if any.  The two C++
`if` blocks test `balance > 1` and `balance < -1` on the balance value
captured before any rotation; they are mutually exclusive and exhaustive
once `|lh - rh| > 1`, so they are embedded as an if/else chain. -/
def balanceDecide (t : Tree) (pH : Option Int) : Tree × Option RotKind :=
  match t with
  | Tree.nil => (Tree.nil, none)
  | Tree.node k v h i l r =>
      if (GetSubtreeHeight l - GetSubtreeHeight r).natAbs ≤ 1 then
        (Tree.node k v h i l r, none)
      else if GetSubtreeBalance (Tree.node k v h i l r) > 1 then
        if GetSubtreeHeight (leftOf l) ≥ GetSubtreeHeight (rightOf l) then
          (rotRightD (Tree.node k v h i l r) (pHdepth pH), some RotKind.single_right)
        else
          (rotRightD (Tree.node k v h i (rotLeftD l (h + 1)) r) (pHdepth pH),
           some RotKind.double_left_right)
      else
        if GetSubtreeHeight (rightOf r) ≥ GetSubtreeHeight (leftOf r) then
          (rotLeftD (Tree.node k v h i l r) (pHdepth pH), some RotKind.single_left)
        else
          (rotLeftD (Tree.node k v h i l (rotRightD r (h + 1))) (pHdepth pH),
           some RotKind.double_right_left)

/-- Application of the `BalanceTree` loop body to the stack entry with key
`y`.  The C++ stack holds a pointer to the node; in the embedding the node
is addressed by its key, equivalent for the search trees the container
builds (every tree the container constructs is a BST with unique keys, and
all stack entries are keys of live nodes).  The search carries the stored
height of the node above (`pH`), which is what `UpdateSubtreeHeights`
reads through the parent pointer. -/
def balanceAtKey : Tree → Option Int → Int → Tree × Option RotKind
  | Tree.nil, _, _ => (Tree.nil, none)
  | Tree.node k v h i l r, pH, y =>
      if k = y then balanceDecide (Tree.node k v h i l r) pH
      else if k < y then
        let p := balanceAtKey r (some h) y
        (Tree.node k v h i l p.1, p.2)
      else
        let p := balanceAtKey l (some h) y
        (Tree.node k v h i p.1 r, p.2)

/-- Result of a `BalanceTree` run: the rebalanced tree, the keys of the
stack entries that were popped and examined (in pop order), and the
rotation events (key and kind, in the order they fired).  The two lists
are instrumentation used to state the traversal-order claims; the C++
function only mutates the tree. -/
structure BTRes where
  tree : Tree
  examined : List Int
  rots : List (Int × RotKind)
deriving DecidableEq, Repr

/-- Embedding of `AVLmap::BalanceTree` (lines 511-563): pop stack entries
one by one; at each, run the decision block (`balanceAtKey`); if the node
was balanced, continue with the next entry; if a rotation fired and
`inserting` is true, break out of the loop; otherwise continue.
`stack` lists the entries in pop order (top of the `std::stack` first). -/
def BalanceTree (t : Tree) (stack : List Int) (inserting : Bool) : BTRes :=
  match stack with
  | [] => ⟨t, [], []⟩
  | y :: rest =>
      let p := balanceAtKey t none y
      match p.2 with
      | none =>
          let res := BalanceTree p.1 rest inserting
          ⟨res.tree, y :: res.examined, res.rots⟩
      | some rk =>
          if inserting then ⟨p.1, [y], [(y, rk)]⟩
          else
            let res := BalanceTree p.1 rest inserting
            ⟨res.tree, y :: res.examined, (y, rk) :: res.rots⟩

/-- Embedding of `AVLmap::FindNode`: descend comparing keys; return the
node with the given key (the subtree rooted there), or `nil` if absent. -/
def FindNode : Tree → Int → Tree
  | Tree.nil, _ => Tree.nil
  | Tree.node k v h i l r, key =>
      if k = key then Tree.node k v h i l r
      else if k < key then FindNode r key
      else FindNode l key

/-- Embedding of `AVLmap::InsertItem`: descend comparing keys, pushing
every interior node passed onto the path stack; at the first null slot
allocate a new node whose stored height is `parentNode->height + 1`
(`0` when the parent is null, i.e. the tree was empty).  `pH` is the
stored height of the parent (`none` at the top-level call on an empty
tree), `id` the allocation identity stamped on the new node.  Returns the
new tree and the pushed keys in push order (root side first); the
`std::stack` therefore pops them in reverse order. -/
def InsertItem : Tree → Option Int → Int → Int → Nat → Tree × List Int
  | Tree.nil, pH, key, value, id =>
      (Tree.node key value (pHdepth pH) id Tree.nil Tree.nil, [])
  | Tree.node k v h i l r, _, key, value, id =>
      if key < k then
        let p := InsertItem l (some h) key value id
        (Tree.node k v h i p.1 r, k :: p.2)
      else if key > k then
        let p := InsertItem r (some h) key value id
        (Tree.node k v h i l p.1, k :: p.2)
      else (Tree.node k v h i l r, [])

/-- Embedding of `Node::last`: follow right children as far as possible
(identity on the null pointer, which the C++ never calls it on). -/
def lastNode : Tree → Tree
  | Tree.nil => Tree.nil
  | Tree.node k v h i l Tree.nil => Tree.node k v h i l Tree.nil
  | Tree.node _ _ _ _ _ r => lastNode r

/-- Embedding of `Node::first`: follow left children as far as possible. -/
def firstNode : Tree → Tree
  | Tree.nil => Tree.nil
  | Tree.node k v h i Tree.nil r => Tree.node k v h i Tree.nil r
  | Tree.node _ _ _ _ l _ => firstNode l

/-- Embedding of `AVLmap::DeleteItem` (with the `FreeNode` side effect on
`size_` made explicit): locate the key; a leaf is detached; a node with
two children has its key and value overwritten in place (same node, same
stored height and identity) with those of its in-order predecessor
`tree->decrement()` (which, the left child being non-null, is
`left->last()`), and the predecessor is then deleted from the left
subtree; a node with one child is replaced by that child (whose stored
heights are not touched).  Returns the new tree and the number of
`FreeNode` calls (each of which decrements `size_`). -/
def DeleteItem : Tree → Int → Tree × Nat
  | Tree.nil, _ => (Tree.nil, 0)
  | Tree.node k v h i l r, key =>
      if key < k then
        let p := DeleteItem l key
        (Tree.node k v h i p.1 r, p.2)
      else if key > k then
        let p := DeleteItem r key
        (Tree.node k v h i l p.1, p.2)
      else
        match l, r with
        | Tree.nil, Tree.nil => (Tree.nil, 1)
        | Tree.nil, Tree.node rk rv rh ri rl rr => (Tree.node rk rv rh ri rl rr, 1)
        | Tree.node lk lv lh li ll lr, Tree.nil => (Tree.node lk lv lh li ll lr, 1)
        | Tree.node lk lv lh li ll lr, Tree.node rk rv rh ri rl rr =>
            match lastNode (Tree.node lk lv lh li ll lr) with
            | Tree.nil => (Tree.nil, 0)
            | Tree.node pk pv _ _ _ _ =>
                let p := DeleteItem (Tree.node lk lv lh li ll lr) pk
                (Tree.node pk pv h i p.1 (Tree.node rk rv rh ri rl rr), p.2)

/-- Embedding of `AVLmap::GetVisitedNodes`: walk the parent pointers from
the target node, pushing parent, grandparent, ..., root onto the stack.
The `std::stack` therefore pops them in the reverse order: root first,
the target's parent last.  The parent chain of a node is the search path
from the root to it (minus the node itself), so the pop-order list is the
root-to-target search path without the target. -/
def GetVisitedNodes : Tree → Int → List Int
  | Tree.nil, _ => []
  | Tree.node k _ _ _ l r, key =>
      if k = key then []
      else if k < key then k :: GetVisitedNodes r key
      else k :: GetVisitedNodes l key

/-- Embedding of the `AVLmap` object: root pointer and node count, plus
the allocation counter `nextId` that stamps the `id` of each new node
(model bookkeeping, not a C++ member). -/
structure AVLmap where
  mRoot : Tree
  size_ : Nat
  nextId : Nat
deriving DecidableEq, Repr

/-- A default-constructed map: null root, size 0. -/
def mkEmpty : AVLmap := ⟨Tree.nil, 0, 0⟩

/-- Embedding of `AVLmap::operator[]` (find-or-insert): if `FindNode`
finds the key the map is unchanged (a reference to the value is
returned); otherwise `InsertItem` inserts a node with a default
constructed value (`0`) and increments `size_`, and `BalanceTree` runs
over the insertion path stack with `inserting = true`. -/
def opIndex (m : AVLmap) (key : Int) : AVLmap :=
  if FindNode m.mRoot key ≠ Tree.nil then m
  else
    let p := InsertItem m.mRoot none key 0 m.nextId
    ⟨(BalanceTree p.1 p.2.reverse true).tree, m.size_ + 1, m.nextId + 1⟩

/-- Value stored at a key: the `value` field of the node `FindNode`
returns (`none` when absent).  This is what `operator[]` returns a
reference to. -/
def valueAt (t : Tree) (key : Int) : Option Int :=
  match FindNode t key with
  | Tree.nil => none
  | Tree.node _ v _ _ _ _ => some v

/-- Value and identity stored at a key (`none` when absent). -/
def entryAt (t : Tree) (key : Int) : Option (Int × Nat) :=
  match FindNode t key with
  | Tree.nil => none
  | Tree.node _ v _ i _ _ => some (v, i)

/-- Embedding of `AVLmap::erase(find(key))`: `find` returns an iterator
holding the `FindNode` result; `erase` on the end iterator (null node,
i.e. the key is absent) returns immediately; otherwise it collects the
ancestor chain with `GetVisitedNodes`, deletes with `DeleteItem` (each
`FreeNode` call decrementing `size_`), and runs `BalanceTree` over the
collected stack with `inserting = false`. -/
def eraseKey (m : AVLmap) (key : Int) : AVLmap :=
  if FindNode m.mRoot key = Tree.nil then m
  else
    let anc := GetVisitedNodes m.mRoot key
    let p := DeleteItem m.mRoot key
    ⟨(BalanceTree p.1 anc false).tree, m.size_ - p.2, m.nextId⟩

/-- Embedding of the move constructor `AVLmap(AVLmap&&)` (lines 46-51):
the destination takes the source's root and size; the source is reset to
a null root and size 0.  Returns (destination, source after the move).
The allocation counter travels with the nodes. -/
def moveConstruct (rhs : AVLmap) : AVLmap × AVLmap :=
  (⟨rhs.mRoot, rhs.size_, rhs.nextId⟩, ⟨Tree.nil, 0, rhs.nextId⟩)

/-- Embedding of the move assignment `operator=(AVLmap&&)` (lines 75-82):
`std::swap` of the roots and of the sizes.  Returns
(destination after, source after).  The model's allocation counters are
swapped along with the trees they describe. -/
def moveAssign (dst rhs : AVLmap) : AVLmap × AVLmap :=
  (⟨rhs.mRoot, rhs.size_, rhs.nextId⟩, ⟨dst.mRoot, dst.size_, dst.nextId⟩)

/-- Depth-correctness of the stored height fields: `depthOk t d` holds
when every node of `t` stores exactly its depth, the root of `t` being at
depth `d`.  This is the semantics the C++ code actually maintains for the
`height` field on insertion paths (`InsertItem` stores
`parent->height + 1`, `UpdateSubtreeHeights` reassigns depths top-down
after a rotation). -/
def depthOk : Tree → Int → Bool
  | Tree.nil, _ => true
  | Tree.node _ _ h _ l r, d => (h == d) && depthOk l (d + 1) && depthOk r (d + 1)

/-- The subtree reached from the root of `t` by following the directions
in `p` (`none` when the path leaves the tree).  A node of the C++ tree is
identified with the root-to-node path; the `parent` pointer of the node at
`p ++ [d]` points to the node at `p`. -/
def subtreeAt : Tree → List Dir → Option Tree
  | t, [] => some t
  | Tree.nil, _ :: _ => none
  | Tree.node _ _ _ _ l _, Dir.L :: p => subtreeAt l p
  | Tree.node _ _ _ _ _ r, Dir.R :: p => subtreeAt r p

/-- The key stored at path `p` (0 when the path is invalid; only used on
valid paths). -/
def keyD (t : Tree) (p : List Dir) : Int :=
  match subtreeAt t p with
  | some (Tree.node k _ _ _ _ _) => k
  | _ => 0

/-- Path form of `Node::first`: the all-left path to the minimum of a
subtree. -/
def firstPath : Tree → List Dir
  | Tree.nil => []
  | Tree.node _ _ _ _ Tree.nil _ => []
  | Tree.node _ _ _ _ l _ => Dir.L :: firstPath l

/-- Path form of `Node::last`: the all-right path to the maximum of a
subtree. -/
def lastPath : Tree → List Dir
  | Tree.nil => []
  | Tree.node _ _ _ _ _ Tree.nil => []
  | Tree.node _ _ _ _ _ r => Dir.R :: lastPath r

/-- Path form of the parent-pointer ascent in `Node::increment`
(lines 881-889): climb while the current node is a right child, then step
to the parent once more (`none` when the root is reached while still a
right child - the end-of-iteration condition).  On root-to-node paths
this strips trailing `R` directions and then drops the final `L`. -/
def upLoop : List Dir → Option (List Dir)
  | [] => none
  | d :: rest =>
      match upLoop rest with
      | some q => some (d :: q)
      | none => if d = Dir.L then some [] else none

/-- Path form of the parent-pointer ascent in `Node::decrement`, mirror
image of `upLoop` (the early `parent->right == this` return of the C++
code is the case in which no `L` gets stripped). -/
def downLoop : List Dir → Option (List Dir)
  | [] => none
  | d :: rest =>
      match downLoop rest with
      | some q => some (d :: q)
      | none => if d = Dir.R then some [] else none

/-- Embedding of `Node::increment` (successor): if the node at `p` has a
right child, descend to the leftmost node of that right subtree,
otherwise climb with `upLoop`.  Returns `none` for the end position or an
invalid path. -/
def increment (t : Tree) (p : List Dir) : Option (List Dir) :=
  match subtreeAt t p with
  | some (Tree.node _ _ _ _ _ (Tree.node rk rv rh ri rl rr)) =>
      some (p ++ Dir.R :: firstPath (Tree.node rk rv rh ri rl rr))
  | some (Tree.node _ _ _ _ _ Tree.nil) => upLoop p
  | _ => none

/-- Embedding of `Node::decrement` (predecessor), mirror image of
`increment`. -/
def decrement (t : Tree) (p : List Dir) : Option (List Dir) :=
  match subtreeAt t p with
  | some (Tree.node _ _ _ _ (Tree.node lk lv lh li ll lr) _) =>
      some (p ++ Dir.L :: lastPath (Tree.node lk lv lh li ll lr))
  | some (Tree.node _ _ _ _ Tree.nil _) => downLoop p
  | _ => none

/-- All root-to-node paths of a tree, in in-order sequence.  This is the
specification device against which the iterator walk is verified. -/
def pathsOf : Tree → List (List Dir)
  | Tree.nil => []
  | Tree.node _ _ _ _ l r =>
      (pathsOf l).map (Dir.L :: ·) ++ [[]] ++ (pathsOf r).map (Dir.R :: ·)

/-- Embedding of `AVLmap::begin`: the leftmost node of the root, or the
end position (none) on an empty map. -/
def beginIter : Tree → Option (List Dir)
  | Tree.nil => none
  | t => some (firstPath t)

/-- The position `last(root)` from which the backward iteration of the
spec starts (`none` on an empty map). -/
def lastIter : Tree → Option (List Dir)
  | Tree.nil => none
  | t => some (lastPath t)

/-- Collect keys by repeatedly applying a step function (the iterator
`++`/`--`), starting from an optional position, for at most `fuel`
steps.  `fuel = count t` suffices to traverse the whole tree. -/
def walkKeys (t : Tree) (step : List Dir → Option (List Dir)) :
    Option (List Dir) → Nat → List Int
  | _, 0 => []
  | none, _ => []
  | some p, Nat.succ n => keyD t p :: walkKeys t step (step p) n

/-- The key sequence produced by iterating `begin()` to `end()` with the
iterator `operator++` (i.e. `Node::increment`). -/
def iterFwdKeys (t : Tree) : List Int :=
  walkKeys t (increment t) (beginIter t) (count t)

/-- The key sequence produced by iterating backward from `last(root)`
with `Node::decrement`. -/
def iterBwdKeys (t : Tree) : List Int :=
  walkKeys t (decrement t) (lastIter t) (count t)

/-! ## Stored-height (depth) lemmas -/

theorem depthOk_setDepths (t : Tree) : ∀ d : Int, depthOk (setDepths t d) d = true := by
  induction t with
  | nil => intro d; rfl
  | node k v h i l r ihl ihr => intro d; simp [setDepths, depthOk, ihl, ihr]

theorem depthOk_rotRightD (t : Tree) (d : Int) (h : depthOk t d = true) :
    depthOk (rotRightD t d) d = true := by
  match t with
  | Tree.nil => simpa [rotRightD] using h
  | Tree.node k v hh i Tree.nil r => simpa [rotRightD] using h
  | Tree.node k v hh i (Tree.node lk lv lh li ll lr) r =>
      simp [rotRightD, depthOk_setDepths]

theorem depthOk_rotLeftD (t : Tree) (d : Int) (h : depthOk t d = true) :
    depthOk (rotLeftD t d) d = true := by
  match t with
  | Tree.nil => simpa [rotLeftD] using h
  | Tree.node k v hh i l Tree.nil => simpa [rotLeftD] using h
  | Tree.node k v hh i l (Tree.node rk rv rh ri rl rr) =>
      simp [rotLeftD, depthOk_setDepths]

theorem depthOk_balanceDecide (t : Tree) (pH : Option Int)
    (h : depthOk t (pHdepth pH) = true) :
    depthOk (balanceDecide t pH).1 (pHdepth pH) = true := by
  match t with
  | Tree.nil => simpa [balanceDecide] using h
  | Tree.node k v hh i l r =>
      simp only [balanceDecide]
      have h' := h
      simp only [depthOk, Bool.and_eq_true, beq_iff_eq] at h'
      obtain ⟨⟨h1, h2⟩, h3⟩ := h'
      split
      · exact h
      · split
        · split
          · exact depthOk_rotRightD _ _ h
          · apply depthOk_rotRightD
            simp only [depthOk, Bool.and_eq_true, beq_iff_eq]
            refine ⟨⟨h1, ?_⟩, h3⟩
            rw [h1]
            exact depthOk_rotLeftD l _ h2
        · split
          · exact depthOk_rotLeftD _ _ h
          · apply depthOk_rotLeftD
            simp only [depthOk, Bool.and_eq_true, beq_iff_eq]
            refine ⟨⟨h1, h2⟩, ?_⟩
            rw [h1]
            exact depthOk_rotRightD r _ h3

theorem depthOk_balanceAtKey (t : Tree) (pH : Option Int) (y : Int)
    (h : depthOk t (pHdepth pH) = true) :
    depthOk (balanceAtKey t pH y).1 (pHdepth pH) = true := by
  induction t generalizing pH with
  | nil => simpa [balanceAtKey] using h
  | node k v hh i l r ihl ihr =>
      have h' := h
      simp only [depthOk, Bool.and_eq_true, beq_iff_eq] at h'
      obtain ⟨⟨h1, h2⟩, h3⟩ := h'
      simp only [balanceAtKey]
      split
      · exact depthOk_balanceDecide _ _ h
      · split
        · simp only [depthOk, Bool.and_eq_true, beq_iff_eq]
          refine ⟨⟨h1, h2⟩, ?_⟩
          have := ihr (some hh) (by simpa [pHdepth, h1] using h3)
          simpa [pHdepth, h1] using this
        · simp only [depthOk, Bool.and_eq_true, beq_iff_eq]
          refine ⟨⟨h1, ?_⟩, h3⟩
          have := ihl (some hh) (by simpa [pHdepth, h1] using h2)
          simpa [pHdepth, h1] using this

theorem depthOk_BalanceTree (stack : List Int) (t : Tree) (inserting : Bool)
    (h : depthOk t 0 = true) :
    depthOk (BalanceTree t stack inserting).tree 0 = true := by
  induction stack generalizing t with
  | nil => simpa [BalanceTree] using h
  | cons y rest ih =>
      have hb : depthOk (balanceAtKey t none y).1 0 = true := by
        simpa [pHdepth] using depthOk_balanceAtKey t none y (by simpa [pHdepth] using h)
      simp only [BalanceTree]
      rcases hk : (balanceAtKey t none y).2 with _ | rk
      · simpa using ih _ hb
      · rcases inserting with _ | _
        · simpa using ih _ hb
        · simpa using hb

theorem depthOk_InsertItem (t : Tree) (pH : Option Int) (key value : Int) (id : Nat)
    (h : depthOk t (pHdepth pH) = true) :
    depthOk (InsertItem t pH key value id).1 (pHdepth pH) = true := by
  induction t generalizing pH with
  | nil => simp [InsertItem, depthOk]
  | node k v hh i l r ihl ihr =>
      have h' := h
      simp only [depthOk, Bool.and_eq_true, beq_iff_eq] at h'
      obtain ⟨⟨h1, h2⟩, h3⟩ := h'
      simp only [InsertItem]
      split
      · simp only [depthOk, Bool.and_eq_true, beq_iff_eq]
        refine ⟨⟨h1, ?_⟩, h3⟩
        have := ihl (some hh) (by simpa [pHdepth, h1] using h2)
        simpa [pHdepth, h1] using this
      · split
        · simp only [depthOk, Bool.and_eq_true, beq_iff_eq]
          refine ⟨⟨h1, h2⟩, ?_⟩
          have := ihr (some hh) (by simpa [pHdepth, h1] using h3)
          simpa [pHdepth, h1] using this
        · exact h

theorem depthOk_opIndex (m : AVLmap) (key : Int) (h : depthOk m.mRoot 0 = true) :
    depthOk (opIndex m key).mRoot 0 = true := by
  unfold opIndex
  split
  · exact h
  · have h0 : depthOk m.mRoot (pHdepth none) = true := by simpa [pHdepth] using h
    have h1 := depthOk_InsertItem m.mRoot none key 0 m.nextId h0
    exact depthOk_BalanceTree _ _ _ (by simpa [pHdepth] using h1)

/-! ## Claim theorems: C1, C3, C4, C9 -/

/-- C1 (code bug): the claim says that after each `operator[]` insertion
and each `erase` every node satisfies BST order and the AVL balance
condition.  The code violates the balance part on erase: the rebalance
stack built by `GetVisitedNodes` holds only the strict ancestors of the
erased node, omitting the node itself and the path down to the physically
removed predecessor.  Inserting 4, 2, 6, 1, 3, 5, 7, 0 produces a valid
AVL tree; erasing 4 (root, two children) removes leaf 3 and leaves the
node with key 2 carrying subtrees of true heights 1 and -1 with an empty
rebalance stack, so the resulting tree is a BST but not height-balanced. -/
theorem C1_erase_leaves_unbalanced_tree :
    (let m := List.foldl opIndex mkEmpty [4, 2, 6, 1, 3, 5, 7, 0]
     let m' := eraseKey m 4
     bstB m.mRoot = true ∧ avlB m.mRoot = true ∧
     bstB m'.mRoot = true ∧ avlB m'.mRoot = false ∧
     GetSubtreeHeight (leftOf (FindNode m'.mRoot 2)) -
       GetSubtreeHeight (rightOf (FindNode m'.mRoot 2)) = 2 ∧
     GetVisitedNodes m.mRoot 4 = []) := by
  decide

/-- C3 counterexample: the stored `height` field is not the true subtree
height.  After inserting 10 then 20 (no rotation occurs), the node with
key 20 is a leaf, so its true subtree height is 0, but its stored field is
1 (its depth, assigned as `parent->height + 1` by `InsertItem`). -/
theorem C3_counterexample_stored_field_is_not_subtree_height :
    (let t := (opIndex (opIndex mkEmpty 10) 20).mRoot
     heightOf (rightOf t) = some 1 ∧ GetSubtreeHeight (rightOf t) = 0) := by
  decide

/-- C3 (amended): after every sequence of `operator[]` insertions starting
from an empty map, the stored `height` field of every node equals the
node's depth from the root (root = 0), assigned from the parent's stored
value at insertion and reassigned top-down over the affected subtree by
`UpdateSubtreeHeights` after every rotation; the true subtree heights
used by the balancing logic (absent = -1, leaf = 0,
node = 1 + max of children) are recomputed on demand by
`GetSubtreeHeight` and never read from the stored field. -/
theorem C3_stored_height_is_depth_after_insertions (ks : List Int) :
    depthOk (List.foldl opIndex mkEmpty ks).mRoot 0 = true := by
  have main : ∀ (l : List Int) (m : AVLmap), depthOk m.mRoot 0 = true →
      depthOk (List.foldl opIndex m l).mRoot 0 = true := by
    intro l
    induction l with
    | nil => intro m h; simpa using h
    | cons a l ih =>
        intro m h
        simpa using ih (opIndex m a) (depthOk_opIndex m a h)
  exact main ks mkEmpty rfl

/-- C4 counterexample: the claim says that after a move assignment the
source is reset to empty.  The move assignment is implemented with
`std::swap`, so assigning from a one-element map into a one-element
destination leaves the source holding the destination's former node
(root key 1, size 1), not empty. -/
theorem C4_counterexample_move_assign_does_not_empty_source :
    (let dst := opIndex mkEmpty 1
     let src := opIndex mkEmpty 2
     (moveAssign dst src).2.mRoot ≠ Tree.nil ∧
     (moveAssign dst src).2.size_ = 1 ∧
     keyOf (moveAssign dst src).2.mRoot = some 1) := by
  decide

/-- C4 (amended): move construction transfers the source's root and size
to the destination and resets the source to empty (null root, size 0);
move assignment swaps the two maps' roots and sizes, so the destination
holds the source's former root and size while the source holds the
destination's former root and size (empty only if the destination was
empty).  In both cases the destination's tree is literally the source's
former tree - node for node, identities included - so no node is copied
or freed by the move. -/
theorem C4_move_construct_transfers_move_assign_swaps (dst rhs : AVLmap) :
    (moveConstruct rhs).1.mRoot = rhs.mRoot ∧
    (moveConstruct rhs).1.size_ = rhs.size_ ∧
    (moveConstruct rhs).2.mRoot = Tree.nil ∧
    (moveConstruct rhs).2.size_ = 0 ∧
    (moveAssign dst rhs).1.mRoot = rhs.mRoot ∧
    (moveAssign dst rhs).1.size_ = rhs.size_ ∧
    (moveAssign dst rhs).2.mRoot = dst.mRoot ∧
    (moveAssign dst rhs).2.size_ = dst.size_ ∧
    inorderE (moveConstruct rhs).1.mRoot = inorderE rhs.mRoot ∧
    inorderE (moveAssign dst rhs).1.mRoot = inorderE rhs.mRoot :=
  ⟨rfl, rfl, rfl, rfl, rfl, rfl, rfl, rfl, rfl, rfl⟩

/-- C9: inserting keys 10, then 20, then 30 into an empty map causes,
after inserting 30, a single left rotation at the ancestor node 10 (and
no other rotation); the resulting tree has root 20 with left child 10 and
right child 30 (both leaves), every balance factor is 0 and both child
subtrees have true height 0, so the tree is height-balanced. -/
theorem C9_insert_10_20_30_single_left_rotation_at_10 :
    (let m2 := opIndex (opIndex mkEmpty 10) 20
     let p := InsertItem m2.mRoot none 30 0 m2.nextId
     let res := BalanceTree p.1 p.2.reverse true
     res.rots = [(10, RotKind.single_left)] ∧
     (opIndex m2 30).mRoot = res.tree ∧
     keyOf res.tree = some 20 ∧
     keyOf (leftOf res.tree) = some 10 ∧
     keyOf (rightOf res.tree) = some 30 ∧
     leftOf (leftOf res.tree) = Tree.nil ∧ rightOf (leftOf res.tree) = Tree.nil ∧
     leftOf (rightOf res.tree) = Tree.nil ∧ rightOf (rightOf res.tree) = Tree.nil ∧
     GetSubtreeBalance res.tree = 0 ∧
     GetSubtreeHeight (leftOf res.tree) = 0 ∧
     GetSubtreeHeight (rightOf res.tree) = 0 ∧
     avlB res.tree = true) := by
  decide

/-! ## Keys, BST order and FindNode lemmas -/

theorem inorderKeys_nil : inorderKeys Tree.nil = [] := rfl

theorem inorderKeys_node (k v : Int) (h : Int) (i : Nat) (l r : Tree) :
    inorderKeys (Tree.node k v h i l r) = inorderKeys l ++ k :: inorderKeys r := by
  simp [inorderKeys, inorderE]

theorem allB_iff (p : Int → Bool) (t : Tree) :
    allB p t = true ↔ ∀ x ∈ inorderKeys t, p x = true := by
  induction t with
  | nil => simp [allB, inorderKeys_nil]
  | node k v h i l r ihl ihr =>
      simp only [allB, Bool.and_eq_true, ihl, ihr, inorderKeys_node, List.mem_append,
        List.mem_cons]
      constructor
      · rintro ⟨⟨hk, hl⟩, hr⟩ x hx
        rcases hx with hx | hx | hx
        · exact hl x hx
        · exact hx ▸ hk
        · exact hr x hx
      · intro h
        exact ⟨⟨h k (Or.inr (Or.inl rfl)), fun x hx => h x (Or.inl hx)⟩,
          fun x hx => h x (Or.inr (Or.inr hx))⟩

theorem bstB_node_iff (k v : Int) (h : Int) (i : Nat) (l r : Tree) :
    bstB (Tree.node k v h i l r) = true ↔
      (∀ x ∈ inorderKeys l, x < k) ∧ (∀ x ∈ inorderKeys r, k < x) ∧
      bstB l = true ∧ bstB r = true := by
  simp [bstB, Bool.and_eq_true, allB_iff, and_assoc]

theorem findNode_self (k v : Int) (h : Int) (i : Nat) (l r : Tree) :
    FindNode (Tree.node k v h i l r) k = Tree.node k v h i l r := by
  simp [FindNode]

theorem findNode_right (k v : Int) (h : Int) (i : Nat) (l r : Tree) (a : Int)
    (ha : k < a) : FindNode (Tree.node k v h i l r) a = FindNode r a := by
  simp [FindNode, ha, show ¬ k = a by omega]

theorem findNode_left (k v : Int) (h : Int) (i : Nat) (l r : Tree) (a : Int)
    (ha : a < k) : FindNode (Tree.node k v h i l r) a = FindNode l a := by
  simp [FindNode, show ¬ k = a by omega, show ¬ k < a by omega]

theorem findNode_keys_subset (t : Tree) (a : Int) :
    ∀ x ∈ inorderKeys (FindNode t a), x ∈ inorderKeys t := by
  induction t with
  | nil => simp [FindNode]
  | node k v h i l r ihl ihr =>
      intro x hx
      simp only [FindNode] at hx
      split at hx
      · exact hx
      · split at hx
        · rw [inorderKeys_node]
          exact List.mem_append.mpr (Or.inr (List.mem_cons.mpr (Or.inr (ihr x hx))))
        · rw [inorderKeys_node]
          exact List.mem_append.mpr (Or.inl (ihl x hx))

theorem mem_right_of_mem_node (k v : Int) (h : Int) (i : Nat) (l r : Tree) (key : Int)
    (hb : bstB (Tree.node k v h i l r) = true)
    (hk : key ∈ inorderKeys (Tree.node k v h i l r)) (hlt : k < key) :
    key ∈ inorderKeys r := by
  rw [bstB_node_iff] at hb
  rw [inorderKeys_node] at hk
  rcases List.mem_append.mp hk with h1 | h2
  · exact absurd (hb.1 key h1) (by omega)
  · rcases List.mem_cons.mp h2 with h3 | h4
    · omega
    · exact h4

theorem mem_left_of_mem_node (k v : Int) (h : Int) (i : Nat) (l r : Tree) (key : Int)
    (hb : bstB (Tree.node k v h i l r) = true)
    (hk : key ∈ inorderKeys (Tree.node k v h i l r)) (hlt : key < k) :
    key ∈ inorderKeys l := by
  rw [bstB_node_iff] at hb
  rw [inorderKeys_node] at hk
  rcases List.mem_append.mp hk with h1 | h2
  · exact h1
  · rcases List.mem_cons.mp h2 with h3 | h4
    · omega
    · exact absurd (hb.2.1 key h4) (by omega)

/-! ## GetVisitedNodes: the collected ancestor stack -/

theorem gvn_subset (t : Tree) (key : Int) :
    ∀ a ∈ GetVisitedNodes t key, a ∈ inorderKeys t ∧ a ≠ key := by
  induction t with
  | nil => simp [GetVisitedNodes]
  | node k v h i l r ihl ihr =>
      intro a ha
      simp only [GetVisitedNodes] at ha
      split at ha
      · simp at ha
      · rename_i hk
        split at ha
        · rcases List.mem_cons.mp ha with h1 | h2
          · subst h1
            exact ⟨by simp [inorderKeys_node], hk⟩
          · obtain ⟨hm, hn⟩ := ihr a h2
            exact ⟨by simp [inorderKeys_node, hm], hn⟩
        · rcases List.mem_cons.mp ha with h1 | h2
          · subst h1
            exact ⟨by simp [inorderKeys_node], hk⟩
          · obtain ⟨hm, hn⟩ := ihl a h2
            exact ⟨by simp [inorderKeys_node, hm], hn⟩

theorem gvn_mem_of_ancestor : ∀ (t : Tree) (key a : Int), bstB t = true →
    key ∈ inorderKeys t → a ≠ key → key ∈ inorderKeys (FindNode t a) →
    a ∈ GetVisitedNodes t key := by
  intro t
  induction t with
  | nil => intro key a _ hk; simp [inorderKeys_nil] at hk
  | node k v h i l r ihl ihr =>
      intro key a hb hk hne ha
      have hb' := hb
      rw [bstB_node_iff] at hb'
      obtain ⟨hlk, hrk, hbl, hbr⟩ := hb'
      simp only [GetVisitedNodes]
      by_cases hek : k = key
      · subst hek
        exfalso
        rcases lt_trichotomy k a with hlt | heq | hgt
        · rw [findNode_right k v h i l r a hlt] at ha
          exact absurd (hrk k (findNode_keys_subset r a k ha)) (by omega)
        · exact hne heq.symm
        · rw [findNode_left k v h i l r a hgt] at ha
          exact absurd (hlk k (findNode_keys_subset l a k ha)) (by omega)
      · by_cases hlt : k < key
        · simp only [hek, hlt, if_false, if_true]
          by_cases hak : a = k
          · exact List.mem_cons.mpr (Or.inl hak)
          · refine List.mem_cons.mpr (Or.inr ?_)
            have hkr : key ∈ inorderKeys r := mem_right_of_mem_node k v h i l r key hb hk hlt
            rcases lt_trichotomy k a with h1 | h2 | h3
            · rw [findNode_right k v h i l r a h1] at ha
              exact ihr key a hbr hkr hne ha
            · exact absurd h2.symm hak
            · exfalso
              rw [findNode_left k v h i l r a h3] at ha
              exact absurd (hlk key (findNode_keys_subset l a key ha)) (by omega)
        · have hgt : key < k := by
            rcases lt_trichotomy k key with h1 | h2 | h3
            · exact absurd h1 hlt
            · exact absurd h2 hek
            · exact h3
          simp only [hek, hlt, if_false]
          by_cases hak : a = k
          · exact List.mem_cons.mpr (Or.inl hak)
          · refine List.mem_cons.mpr (Or.inr ?_)
            have hkl : key ∈ inorderKeys l := mem_left_of_mem_node k v h i l r key hb hk hgt
            rcases lt_trichotomy k a with h1 | h2 | h3
            · exfalso
              rw [findNode_right k v h i l r a h1] at ha
              exact absurd (hrk key (findNode_keys_subset r a key ha)) (by omega)
            · exact absurd h2.symm hak
            · rw [findNode_left k v h i l r a h3] at ha
              exact ihl key a hbl hkl hne ha

theorem ancestor_of_gvn_mem : ∀ (t : Tree) (key a : Int), bstB t = true →
    key ∈ inorderKeys t → a ∈ GetVisitedNodes t key →
    key ∈ inorderKeys (FindNode t a) := by
  intro t
  induction t with
  | nil => intro key a _ _ ha; simp [GetVisitedNodes] at ha
  | node k v h i l r ihl ihr =>
      intro key a hb hk ha
      have hb' := hb
      rw [bstB_node_iff] at hb'
      obtain ⟨hlk, hrk, hbl, hbr⟩ := hb'
      simp only [GetVisitedNodes] at ha
      split at ha
      · simp at ha
      · rename_i hek
        split at ha
        · rename_i hlt
          rcases List.mem_cons.mp ha with h1 | h2
          · subst h1; rw [findNode_self]; exact hk
          · have hkr : key ∈ inorderKeys r := mem_right_of_mem_node k v h i l r key hb hk hlt
            have har : a ∈ inorderKeys r := (gvn_subset r key a h2).1
            rw [findNode_right k v h i l r a (hrk a har)]
            exact ihr key a hbr hkr h2
        · rename_i hlt
          have hgt : key < k := by
            rcases lt_trichotomy k key with h1 | h2 | h3
            · exact absurd h1 hlt
            · exact absurd h2 hek
            · exact h3
          rcases List.mem_cons.mp ha with h1 | h2
          · subst h1; rw [findNode_self]; exact hk
          · have hkl : key ∈ inorderKeys l := mem_left_of_mem_node k v h i l r key hb hk hgt
            have hal : a ∈ inorderKeys l := (gvn_subset l key a h2).1
            rw [findNode_left k v h i l r a (hlk a hal)]
            exact ihl key a hbl hkl h2

theorem chain'_imp_of_mem {α : Type} {R S : α → α → Prop} :
    ∀ l : List α, (∀ a ∈ l, ∀ b ∈ l, R a b → S a b) → List.Chain' R l → List.Chain' S l := by
  intro l
  induction l with
  | nil => intro _ _; exact List.chain'_nil
  | cons a l ih =>
      intro himp hch
      cases l with
      | nil => exact List.chain'_singleton a
      | cons b l' =>
          rw [List.chain'_cons] at hch ⊢
          refine ⟨himp a (by simp) b (by simp) hch.1, ih ?_ hch.2⟩
          intro x hx y hy hr
          exact himp x (List.mem_cons.mpr (Or.inr hx)) y (List.mem_cons.mpr (Or.inr hy)) hr

theorem gvn_chain : ∀ (t : Tree) (key : Int), bstB t = true → key ∈ inorderKeys t →
    List.Chain' (fun b c => c ∈ inorderKeys (FindNode t b)) (GetVisitedNodes t key) := by
  intro t
  induction t with
  | nil => intro key _ _; simp [GetVisitedNodes]
  | node k v h i l r ihl ihr =>
      intro key hb hk
      have hb' := hb
      rw [bstB_node_iff] at hb'
      obtain ⟨hlk, hrk, hbl, hbr⟩ := hb'
      simp only [GetVisitedNodes]
      split
      · exact List.chain'_nil
      · rename_i hek
        split
        · rename_i hlt
          have hkr : key ∈ inorderKeys r := mem_right_of_mem_node k v h i l r key hb hk hlt
          rw [List.chain'_cons']
          constructor
          · intro x hx
            have hxm : x ∈ GetVisitedNodes r key := List.mem_of_mem_head? hx
            rw [findNode_self]
            simp [inorderKeys_node, (gvn_subset r key x hxm).1]
          · refine chain'_imp_of_mem _ ?_ (ihr key hbr hkr)
            intro b hbm c _ hc
            rw [findNode_right k v h i l r b (hrk b (gvn_subset r key b hbm).1)]
            exact hc
        · rename_i hlt
          have hgt : key < k := by
            rcases lt_trichotomy k key with h1 | h2 | h3
            · exact absurd h1 hlt
            · exact absurd h2 hek
            · exact h3
          have hkl : key ∈ inorderKeys l := mem_left_of_mem_node k v h i l r key hb hk hgt
          rw [List.chain'_cons']
          constructor
          · intro x hx
            have hxm : x ∈ GetVisitedNodes l key := List.mem_of_mem_head? hx
            rw [findNode_self]
            simp [inorderKeys_node, (gvn_subset l key x hxm).1]
          · refine chain'_imp_of_mem _ ?_ (ihl key hbl hkl)
            intro b hbm c _ hc
            rw [findNode_left k v h i l r b (hlk b (gvn_subset l key b hbm).1)]
            exact hc

/-! ## BalanceTree traversal lemmas -/

theorem balanceTree_false_examined : ∀ (stack : List Int) (t : Tree),
    (BalanceTree t stack false).examined = stack := by
  intro stack
  induction stack with
  | nil => intro t; rfl
  | cons y rest ih =>
      intro t
      rcases hbk : balanceAtKey t none y with ⟨t2, rot⟩
      cases rot with
      | none => simp [BalanceTree, hbk, ih]
      | some rk => simp [BalanceTree, hbk, ih]

theorem balanceTree_true_stops : ∀ (stack : List Int) (t : Tree),
    (BalanceTree t stack true).rots.length ≤ 1 ∧
    ∃ rest, stack = (BalanceTree t stack true).examined ++ rest ∧
      (((BalanceTree t stack true).rots = [] ∧ rest = []) ∨
        ∃ y rk, (BalanceTree t stack true).rots = [(y, rk)] ∧
          (BalanceTree t stack true).examined.getLast? = some y) := by
  intro stack
  induction stack with
  | nil =>
      intro t
      exact ⟨by simp [BalanceTree], [], by simp [BalanceTree], Or.inl ⟨by simp [BalanceTree], rfl⟩⟩
  | cons z rest ih =>
      intro t
      rcases hbk : balanceAtKey t none z with ⟨t2, rot⟩
      cases rot with
      | none =>
          obtain ⟨h1, rest', hsp, hc⟩ := ih t2
          simp only [BalanceTree, hbk]
          refine ⟨h1, rest', by simpa using congrArg (List.cons z) hsp, ?_⟩
          rcases hc with ⟨ha, hb⟩ | ⟨y, rk, hr, hl⟩
          · exact Or.inl ⟨ha, hb⟩
          · right
            refine ⟨y, rk, hr, ?_⟩
            have hne : (BalanceTree t2 rest true).examined ≠ [] := by
              intro hemp
              rw [hemp] at hl
              simp at hl
            rcases hex : (BalanceTree t2 rest true).examined with _ | ⟨e, es⟩
            · exact absurd hex hne
            · rw [hex] at hl
              simpa [List.getLast?_cons_cons] using hl
      | some rk =>
          simp only [BalanceTree, hbk]
          exact ⟨by simp, rest, by simp, Or.inr ⟨z, rk, by simp, by simp⟩⟩

theorem insertItem_pushed_eq_visited : ∀ (t : Tree) (pH : Option Int) (key value : Int)
    (id : Nat), (InsertItem t pH key value id).2 =
      GetVisitedNodes (InsertItem t pH key value id).1 key := by
  intro t
  induction t with
  | nil => intro pH key value id; simp [InsertItem, GetVisitedNodes]
  | node k v h i l r ihl ihr =>
      intro pH key value id
      simp only [InsertItem]
      by_cases h1 : key < k
      · simp only [h1, if_true]
        simp [GetVisitedNodes, show ¬ k = key by omega, show ¬ k < key by omega, ihl]
      · by_cases h2 : key > k
        · simp only [h1, h2, if_false, if_true]
          simp [GetVisitedNodes, show ¬ k = key by omega, show k < key by omega, ihr]
        · have : k = key := by omega
          simp [h1, h2, GetVisitedNodes, this]

/-! ## Claim theorems: C2, C5 -/

/-- C2 counterexample: the claim says the erase rebalancing pops ancestors
nearest-to-deletion first.  `GetVisitedNodes` pushes parent, grandparent,
..., root in that order, so the `std::stack` pops them root-first.  In
the tree built by inserting 4, 2, 6, 1, the node 2 is the parent of the
target 1 and 4 is the root above it, yet the pop-order list is [4, 2]:
the root (farthest ancestor) is examined first and the parent (nearest)
last. -/
theorem C2_counterexample_pop_order_is_root_first :
    (let t := (List.foldl opIndex mkEmpty [4, 2, 6, 1]).mRoot
     GetVisitedNodes t 1 = [4, 2] ∧
     1 ∈ inorderKeys (FindNode t 2) ∧
     2 ∈ inorderKeys (FindNode t 4) ∧
     4 ∉ inorderKeys (FindNode t 2)) := by
  decide

/-- C2 (amended): for every erase of a present node, before mutation the
entire strict-ancestor chain of the target node is collected into the
stack (the membership equivalence below: the collected keys are exactly
the keys of nodes other than the target whose subtree contains the
target), the chain is ordered root-first - each later entry lies in the
subtree of the earlier one - so ancestors are popped farthest-from-the-
deletion first (nearest last), and the rebalancing loop with
`inserting = false` examines every collected ancestor, never stopping
after a rotation. -/
theorem C2_erase_collects_all_ancestors_pops_root_first (t : Tree) (key : Int)
    (hb : bstB t = true) (hk : key ∈ inorderKeys t) :
    (∀ a, a ∈ GetVisitedNodes t key ↔
      (a ∈ inorderKeys t ∧ a ≠ key ∧ key ∈ inorderKeys (FindNode t a))) ∧
    List.Chain' (fun b c => c ∈ inorderKeys (FindNode t b)) (GetVisitedNodes t key) ∧
    (∀ u : Tree, (BalanceTree u (GetVisitedNodes t key) false).examined =
      GetVisitedNodes t key) := by
  refine ⟨?_, gvn_chain t key hb hk, fun u => balanceTree_false_examined _ u⟩
  intro a
  constructor
  · intro ha
    obtain ⟨h1, h2⟩ := gvn_subset t key a ha
    exact ⟨h1, h2, ancestor_of_gvn_mem t key a hb hk ha⟩
  · rintro ⟨_, h2, h3⟩
    exact gvn_mem_of_ancestor t key a hb hk h2 h3

/-- Witness for C2: the theorem applied to the concrete tree built by
inserting 4, 2, 6, 1, with target key 1. -/
theorem C2_erase_collects_all_ancestors_witness :
    bstB (List.foldl opIndex mkEmpty [4, 2, 6, 1]).mRoot = true ∧
    1 ∈ inorderKeys (List.foldl opIndex mkEmpty [4, 2, 6, 1]).mRoot ∧
    ((∀ a, a ∈ GetVisitedNodes (List.foldl opIndex mkEmpty [4, 2, 6, 1]).mRoot 1 ↔
      (a ∈ inorderKeys (List.foldl opIndex mkEmpty [4, 2, 6, 1]).mRoot ∧ a ≠ 1 ∧
        1 ∈ inorderKeys (FindNode (List.foldl opIndex mkEmpty [4, 2, 6, 1]).mRoot a))) ∧
    List.Chain' (fun b c => c ∈ inorderKeys
        (FindNode (List.foldl opIndex mkEmpty [4, 2, 6, 1]).mRoot b))
      (GetVisitedNodes (List.foldl opIndex mkEmpty [4, 2, 6, 1]).mRoot 1) ∧
    (∀ u : Tree, (BalanceTree u
        (GetVisitedNodes (List.foldl opIndex mkEmpty [4, 2, 6, 1]).mRoot 1) false).examined =
      GetVisitedNodes (List.foldl opIndex mkEmpty [4, 2, 6, 1]).mRoot 1)) :=
  ⟨by decide, by decide,
    C2_erase_collects_all_ancestors_pops_root_first _ 1 (by decide) (by decide)⟩

/-- C5: during rebalancing after an insertion the stack handed to
`BalanceTree` lists the new node's ancestors nearest-to-insertion-point
first (the pushed path reversed by the stack; the last conjunct
identifies the pushed list with the ancestor chain of the inserted key in
push order), the examined entries form a prefix of the stack, at most one
rotation is performed, and if one is performed it happens at the last
examined entry - the walk stops immediately after the first corrective
rotation; with `inserting = false` (deletion) every stack entry is
examined. -/
theorem C5_insert_stops_after_first_rotation_delete_examines_all
    (t : Tree) (stack : List Int) :
    ((BalanceTree t stack true).rots.length ≤ 1 ∧
     ∃ rest, stack = (BalanceTree t stack true).examined ++ rest ∧
       (((BalanceTree t stack true).rots = [] ∧ rest = []) ∨
         ∃ y rk, (BalanceTree t stack true).rots = [(y, rk)] ∧
           (BalanceTree t stack true).examined.getLast? = some y)) ∧
    (BalanceTree t stack false).examined = stack ∧
    (∀ (t0 : Tree) (pH : Option Int) (key value : Int) (id : Nat),
      (InsertItem t0 pH key value id).2 =
        GetVisitedNodes (InsertItem t0 pH key value id).1 key) :=
  ⟨balanceTree_true_stops stack t, balanceTree_false_examined stack t,
    fun t0 pH key value id => insertItem_pushed_eq_visited t0 pH key value id⟩

/-! ## Rotations and BalanceTree preserve the in-order contents -/

theorem inorderE_setDepths (t : Tree) : ∀ d : Int, inorderE (setDepths t d) = inorderE t := by
  induction t with
  | nil => intro d; rfl
  | node k v h i l r ihl ihr => intro d; simp [setDepths, inorderE, ihl, ihr]

theorem inorderE_rotRightD (t : Tree) (d : Int) : inorderE (rotRightD t d) = inorderE t := by
  match t with
  | Tree.nil => rfl
  | Tree.node k v h i Tree.nil r => simp [rotRightD]
  | Tree.node k v h i (Tree.node lk lv lh li ll lr) r =>
      simp [rotRightD, inorderE_setDepths, inorderE]

theorem inorderE_rotLeftD (t : Tree) (d : Int) : inorderE (rotLeftD t d) = inorderE t := by
  match t with
  | Tree.nil => rfl
  | Tree.node k v h i l Tree.nil => simp [rotLeftD]
  | Tree.node k v h i l (Tree.node rk rv rh ri rl rr) =>
      simp [rotLeftD, inorderE_setDepths, inorderE]

theorem inorderE_balanceDecide (t : Tree) (pH : Option Int) :
    inorderE (balanceDecide t pH).1 = inorderE t := by
  match t with
  | Tree.nil => rfl
  | Tree.node k v h i l r =>
      simp only [balanceDecide]
      split
      · rfl
      · split
        · split
          · exact inorderE_rotRightD _ _
          · rw [inorderE_rotRightD]
            simp [inorderE, inorderE_rotLeftD]
        · split
          · exact inorderE_rotLeftD _ _
          · rw [inorderE_rotLeftD]
            simp [inorderE, inorderE_rotRightD]

theorem inorderE_balanceAtKey (t : Tree) : ∀ (pH : Option Int) (y : Int),
    inorderE (balanceAtKey t pH y).1 = inorderE t := by
  induction t with
  | nil => intro pH y; rfl
  | node k v h i l r ihl ihr =>
      intro pH y
      simp only [balanceAtKey]
      split
      · exact inorderE_balanceDecide _ _
      · split
        · simp [inorderE, ihr]
        · simp [inorderE, ihl]

theorem inorderE_balanceTree : ∀ (stack : List Int) (t : Tree) (b : Bool),
    inorderE (BalanceTree t stack b).tree = inorderE t := by
  intro stack
  induction stack with
  | nil => intro t b; rfl
  | cons y rest ih =>
      intro t b
      rcases hbk : balanceAtKey t none y with ⟨t2, rot⟩
      have ht2 : inorderE t2 = inorderE t := by
        have := inorderE_balanceAtKey t none y
        rw [hbk] at this
        exact this
      cases rot with
      | none =>
          simp only [BalanceTree, hbk]
          rw [ih t2 b, ht2]
      | some rk =>
          cases b with
          | false => simp [BalanceTree, hbk, ih, ht2]
          | true => simp [BalanceTree, hbk, ht2]

theorem inorderKeys_balanceTree (stack : List Int) (t : Tree) (b : Bool) :
    inorderKeys (BalanceTree t stack b).tree = inorderKeys t := by
  unfold inorderKeys
  rw [inorderE_balanceTree]

/-! ## BST order is sortedness of the in-order key list -/

theorem bstB_iff_sorted (t : Tree) :
    bstB t = true ↔ (inorderKeys t).Sorted (· < ·) := by
  induction t with
  | nil => simp [bstB, inorderKeys_nil]
  | node k v h i l r ihl ihr =>
      simp only [List.Sorted] at ihl ihr ⊢
      rw [bstB_node_iff, inorderKeys_node, List.pairwise_append, ihl, ihr,
        List.pairwise_cons]
      constructor
      · rintro ⟨h1, h2, h3, h4⟩
        refine ⟨h3, ⟨h2, h4⟩, ?_⟩
        intro x hx y hy
        rcases List.mem_cons.mp hy with rfl | hy
        · exact h1 x hx
        · exact lt_trans (h1 x hx) (h2 y hy)
      · rintro ⟨hsl, ⟨hk, hsr⟩, hcross⟩
        exact ⟨fun x hx => hcross x hx k (List.mem_cons_self _ _), hk, hsl, hsr⟩

/-! ## InsertItem: membership, entries and BST preservation -/

theorem mem_keys_insertItem (t : Tree) : ∀ (pH : Option Int) (key value : Int) (id : Nat)
    (x : Int), x ∈ inorderKeys (InsertItem t pH key value id).1 ↔
      x = key ∨ x ∈ inorderKeys t := by
  induction t with
  | nil =>
      intro pH key value id x
      simp [InsertItem, inorderKeys_node, inorderKeys_nil]
  | node k v h i l r ihl ihr =>
      intro pH key value id x
      simp only [InsertItem]
      split
      · simp only [inorderKeys_node, List.mem_append, List.mem_cons, ihl]
        tauto
      · split
        · simp only [inorderKeys_node, List.mem_append, List.mem_cons, ihr]
          tauto
        · rename_i h1 h2
          have hkk : key = k := by omega
          subst hkk
          simp only [inorderKeys_node, List.mem_append, List.mem_cons]
          tauto

theorem entry_insertItem (t : Tree) : ∀ (pH : Option Int) (key value : Int) (id : Nat)
    (e : Int × Int × Nat), key ∉ inorderKeys t →
    (e ∈ inorderE (InsertItem t pH key value id).1 ↔
      e = (key, value, id) ∨ e ∈ inorderE t) := by
  induction t with
  | nil =>
      intro pH key value id e _
      simp [InsertItem, inorderE]
  | node k v h i l r ihl ihr =>
      intro pH key value id e hfresh
      have hkl : key ∉ inorderKeys l := by
        intro hm
        exact hfresh (by simp [inorderKeys_node, hm])
      have hkr : key ∉ inorderKeys r := by
        intro hm
        exact hfresh (by simp [inorderKeys_node, hm])
      simp only [InsertItem]
      split
      · simp only [inorderE, List.mem_append, List.mem_cons, ihl _ _ _ _ _ hkl]
        tauto
      · split
        · simp only [inorderE, List.mem_append, List.mem_cons, ihr _ _ _ _ _ hkr]
          tauto
        · rename_i h1 h2
          have hkk : key = k := by omega
          exact absurd (by simp [inorderKeys_node, hkk]) hfresh

theorem bstB_insertItem (t : Tree) : ∀ (pH : Option Int) (key value : Int) (id : Nat),
    bstB t = true → bstB (InsertItem t pH key value id).1 = true := by
  induction t with
  | nil =>
      intro pH key value id _
      simp [InsertItem, bstB, allB]
  | node k v h i l r ihl ihr =>
      intro pH key value id hb
      rw [bstB_node_iff] at hb
      obtain ⟨h1, h2, h3, h4⟩ := hb
      simp only [InsertItem]
      split
      · rename_i hlt
        rw [bstB_node_iff]
        refine ⟨?_, h2, ihl _ _ _ _ h3, h4⟩
        intro x hx
        rcases (mem_keys_insertItem l _ key value id x).mp hx with rfl | hx
        · exact hlt
        · exact h1 x hx
      · split
        · rename_i hn hgt
          rw [bstB_node_iff]
          refine ⟨h1, ?_, h3, ihr _ _ _ _ h4⟩
          intro x hx
          rcases (mem_keys_insertItem r _ key value id x).mp hx with rfl | hx
          · omega
          · exact h2 x hx
        · rw [bstB_node_iff]
          exact ⟨h1, h2, h3, h4⟩

/-! ## FindNode and entry lookup -/

theorem findNode_ne_nil_of_mem : ∀ (t : Tree) (key : Int), bstB t = true →
    key ∈ inorderKeys t → FindNode t key ≠ Tree.nil := by
  intro t
  induction t with
  | nil => intro key _ hk; simp [inorderKeys_nil] at hk
  | node k v h i l r ihl ihr =>
      intro key hb hk
      rcases lt_trichotomy k key with h1 | h2 | h3
      · rw [findNode_right k v h i l r key h1]
        exact ihr key (bstB_node_iff k v h i l r |>.mp hb).2.2.2
          (mem_right_of_mem_node k v h i l r key hb hk h1)
      · subst h2
        rw [findNode_self]
        simp
      · rw [findNode_left k v h i l r key h3]
        exact ihl key (bstB_node_iff k v h i l r |>.mp hb).2.2.1
          (mem_left_of_mem_node k v h i l r key hb hk h3)

theorem mem_of_findNode_ne_nil : ∀ (t : Tree) (key : Int),
    FindNode t key ≠ Tree.nil → key ∈ inorderKeys t := by
  intro t
  induction t with
  | nil => intro key hf; simp [FindNode] at hf
  | node k v h i l r ihl ihr =>
      intro key hf
      simp only [FindNode] at hf
      split at hf
      · rename_i hkk
        simp [inorderKeys_node, hkk]
      · split at hf
        · simp [inorderKeys_node, ihr key hf]
        · simp [inorderKeys_node, ihl key hf]

theorem entryAt_congr (t t' : Tree) (key : Int) (h : FindNode t key = FindNode t' key) :
    entryAt t key = entryAt t' key := by
  unfold entryAt
  rw [h]

theorem entryAt_of_mem : ∀ (t : Tree) (key v : Int) (i : Nat), bstB t = true →
    (key, v, i) ∈ inorderE t → entryAt t key = some (v, i) := by
  intro t
  induction t with
  | nil => intro key v i _ hm; simp [inorderE] at hm
  | node k0 v0 h0 i0 l r ihl ihr =>
      intro key v i hb hm
      have hb' := hb
      rw [bstB_node_iff] at hb'
      obtain ⟨h1, h2, h3, h4⟩ := hb'
      simp only [inorderE, List.mem_append, List.mem_cons] at hm
      rcases hm with hm | hm | hm
      · have hkey : key ∈ inorderKeys l := by
          unfold inorderKeys
          exact List.mem_map_of_mem _ hm
        have hlt : key < k0 := h1 _ hkey
        rw [entryAt_congr _ l key (findNode_left k0 v0 h0 i0 l r key hlt)]
        exact ihl key v i h3 hm
      · simp only [Prod.mk.injEq] at hm
        obtain ⟨rfl, rfl, rfl⟩ := hm
        unfold entryAt
        rw [findNode_self]
      · have hkey : key ∈ inorderKeys r := by
          unfold inorderKeys
          exact List.mem_map_of_mem _ hm
        have hgt : k0 < key := h2 _ hkey
        rw [entryAt_congr _ r key (findNode_right k0 v0 h0 i0 l r key hgt)]
        exact ihr key v i h4 hm

theorem valueAt_eq_entryAt (t : Tree) (key : Int) :
    valueAt t key = (entryAt t key).map Prod.fst := by
  unfold valueAt entryAt
  cases hF : FindNode t key <;> simp

/-! ## DeleteItem lemmas -/

theorem inorderE_node_ne_nil (k v hh : Int) (i : Nat) (l r : Tree) :
    inorderE (Tree.node k v hh i l r) ≠ [] := by
  simp [inorderE]

theorem inorderE_node_nil_right (k v hh : Int) (i : Nat) (l : Tree) :
    inorderE (Tree.node k v hh i l Tree.nil) = inorderE l ++ [(k, v, i)] := by
  simp [inorderE]

theorem lastNode_getLast : ∀ l : Tree, l ≠ Tree.nil →
    ∃ pk pv ph pi pll, lastNode l = Tree.node pk pv ph pi pll Tree.nil ∧
      (inorderE l).getLast? = some (pk, pv, pi) := by
  intro l
  induction l with
  | nil => intro h; exact absurd rfl h
  | node k v h i ll rr ihl ihr =>
      intro _
      cases rr with
      | nil =>
          refine ⟨k, v, h, i, ll, by simp [lastNode], ?_⟩
          rw [inorderE_node_nil_right, List.getLast?_concat]
      | node rk rv rh ri rl rr2 =>
          obtain ⟨pk, pv, ph, pi, pll, h1, h2⟩ := ihr (by simp)
          refine ⟨pk, pv, ph, pi, pll, by simpa [lastNode] using h1, ?_⟩
          rw [inorderE, List.getLast?_append_cons]
          obtain ⟨x, xs, hx⟩ :=
            List.exists_cons_of_ne_nil (inorderE_node_ne_nil rk rv rh ri rl rr2)
          rw [hx] at h2 ⊢
          rw [List.getLast?_cons_cons]
          exact h2

theorem deleteItem_lastKey : ∀ l : Tree, bstB l = true →
    ∀ (pk pv ph : Int) (pi : Nat) (pll : Tree),
    lastNode l = Tree.node pk pv ph pi pll Tree.nil →
    inorderE (DeleteItem l pk).1 = (inorderE l).dropLast ∧ (DeleteItem l pk).2 = 1 := by
  intro l
  induction l with
  | nil => intro _ pk pv ph pi pll hl; simp [lastNode] at hl
  | node k v h i ll rr ihl ihr =>
      intro hb pk pv ph pi pll hl
      have hb' := hb
      rw [bstB_node_iff] at hb'
      obtain ⟨h1, h2, h3, h4⟩ := hb'
      cases rr with
      | nil =>
          have he : Tree.node k v h i ll Tree.nil = Tree.node pk pv ph pi pll Tree.nil := by
            simpa [lastNode] using hl
          injection he with e1 e2 e3 e4 e5 e6
          subst e1
          cases ll with
          | nil =>
              constructor
              · rw [DeleteItem.eq_def]
                simp only [lt_irrefl, if_false, gt_iff_lt]
                simp [inorderE]
              · rw [DeleteItem.eq_def]
                simp only [lt_irrefl, if_false, gt_iff_lt]
          | node a b c d e f =>
              constructor
              · rw [DeleteItem.eq_def]
                simp only [lt_irrefl, if_false, gt_iff_lt]
                rw [inorderE_node_nil_right, List.dropLast_concat]
              · rw [DeleteItem.eq_def]
                simp only [lt_irrefl, if_false, gt_iff_lt]
      | node rk rv rh ri rl rr2 =>
          have hlast : lastNode (Tree.node rk rv rh ri rl rr2) =
              Tree.node pk pv ph pi pll Tree.nil := by
            simpa [lastNode] using hl
          obtain ⟨hE, hc⟩ := ihr h4 pk pv ph pi pll hlast
          have hpk_mem : pk ∈ inorderKeys (Tree.node rk rv rh ri rl rr2) := by
            obtain ⟨pk', pv', ph', pi', pll', hL, hG⟩ :=
              lastNode_getLast (Tree.node rk rv rh ri rl rr2) (by simp)
            rw [hlast] at hL
            injection hL with f1 f2 f3 f4 f5 f6
            subst f1; subst f3
            unfold inorderKeys
            exact List.mem_map_of_mem _ (List.mem_of_getLast?_eq_some hG)
          have hkpk : k < pk := h2 pk hpk_mem
          constructor
          · rw [DeleteItem.eq_def]
            simp only [show ¬ pk < k by omega, if_false, gt_iff_lt, hkpk, if_true]
            rw [inorderE, inorderE, hE, List.dropLast_append_cons]
            rw [List.dropLast_cons_of_ne_nil (inorderE_node_ne_nil rk rv rh ri rl rr2)]
          · rw [DeleteItem.eq_def]
            simp only [show ¬ pk < k by omega, if_false, gt_iff_lt, hkpk, if_true]
            exact hc

theorem deleteItem_count : ∀ (t : Tree) (key : Int), bstB t = true →
    key ∈ inorderKeys t → (DeleteItem t key).2 = 1 := by
  intro t
  induction t with
  | nil => intro key _ hk; simp [inorderKeys_nil] at hk
  | node k v h i l r ihl ihr =>
      intro key hb hk
      have hb' := hb
      rw [bstB_node_iff] at hb'
      obtain ⟨h1, h2, h3, h4⟩ := hb'
      rcases lt_trichotomy key k with hc | hc | hc
      · have hm := mem_left_of_mem_node k v h i l r key hb hk hc
        rw [DeleteItem.eq_def]
        simp only [if_pos hc]
        exact ihl key h3 hm
      · subst hc
        cases l with
        | nil =>
            cases r with
            | nil =>
                rw [DeleteItem.eq_def]
                simp only [lt_irrefl, if_false, gt_iff_lt]
            | node rk rv rh ri rl rr =>
                rw [DeleteItem.eq_def]
                simp only [lt_irrefl, if_false, gt_iff_lt]
        | node lk lv lh li ll lr =>
            cases r with
            | nil =>
                rw [DeleteItem.eq_def]
                simp only [lt_irrefl, if_false, gt_iff_lt]
            | node rk rv rh ri rl rr =>
                obtain ⟨pk, pv, ph, pi, pll, hL, _⟩ :=
                  lastNode_getLast (Tree.node lk lv lh li ll lr) (by simp)
                rw [DeleteItem.eq_def]
                simp only [lt_irrefl, if_false, gt_iff_lt, hL]
                exact (deleteItem_lastKey (Tree.node lk lv lh li ll lr) h3 pk pv ph pi pll hL).2
      · have hm := mem_right_of_mem_node k v h i l r key hb hk hc
        rw [DeleteItem.eq_def]
        simp only [show ¬ key < k by omega, if_false, gt_iff_lt, hc, if_true]
        exact ihr key h4 hm

theorem deleteItem_two_children : ∀ (t : Tree) (key v hh : Int) (i : Nat) (l r : Tree),
    bstB t = true → FindNode t key = Tree.node key v hh i l r →
    l ≠ Tree.nil → r ≠ Tree.nil →
    ∀ (pk pv ph : Int) (pi : Nat) (pll : Tree),
    lastNode l = Tree.node pk pv ph pi pll Tree.nil →
    ∃ A B, inorderE t = A ++ (inorderE l ++ (key, v, i) :: inorderE r) ++ B ∧
      inorderE (DeleteItem t key).1 =
        A ++ ((inorderE l).dropLast ++ (pk, pv, i) :: inorderE r) ++ B ∧
      (DeleteItem t key).2 = 1 := by
  intro t
  induction t with
  | nil => intro key v hh i l r _ hf; simp [FindNode] at hf
  | node k0 v0 h0 i0 l0 r0 ihl ihr =>
      intro key v hh i l r hb hf hl hr pk pv ph pi pll hlast
      have hb' := hb
      rw [bstB_node_iff] at hb'
      obtain ⟨h1, h2, h3, h4⟩ := hb'
      rcases lt_trichotomy key k0 with hc | hc | hc
      · rw [findNode_left k0 v0 h0 i0 l0 r0 key hc] at hf
        obtain ⟨A, B, e1, e2, e3⟩ := ihl key v hh i l r h3 hf hl hr pk pv ph pi pll hlast
        refine ⟨A, B ++ (k0, v0, i0) :: inorderE r0, ?_, ?_, ?_⟩
        · rw [inorderE, e1]
          simp [List.append_assoc]
        · rw [DeleteItem.eq_def]
          simp only [if_pos hc]
          rw [inorderE, e2]
          simp [List.append_assoc]
        · rw [DeleteItem.eq_def]
          simp only [if_pos hc]
          exact e3
      · have hself : FindNode (Tree.node k0 v0 h0 i0 l0 r0) key =
            Tree.node k0 v0 h0 i0 l0 r0 := by
          rw [hc]
          exact findNode_self k0 v0 h0 i0 l0 r0
        rw [hself] at hf
        injection hf with e1 e2 e3 e4 e5 e6
        rw [← e5] at hl hlast
        rw [← e6] at hr
        rw [← e1, ← e2, ← e4, ← e5, ← e6]
        cases l0 with
        | nil => exact absurd rfl hl
        | node lk lv lh li ll lr =>
            cases r0 with
            | nil => exact absurd rfl hr
            | node rk rv rh ri rl rr =>
                obtain ⟨hE, hc1⟩ :=
                  deleteItem_lastKey (Tree.node lk lv lh li ll lr) h3 pk pv ph pi pll hlast
                refine ⟨[], [], by simp [inorderE], ?_, ?_⟩
                · rw [DeleteItem.eq_def]
                  simp only [lt_irrefl, if_false, gt_iff_lt, hlast]
                  rw [inorderE, hE]
                  simp
                · rw [DeleteItem.eq_def]
                  simp only [lt_irrefl, if_false, gt_iff_lt, hlast]
                  exact hc1
      · rw [findNode_right k0 v0 h0 i0 l0 r0 key hc] at hf
        obtain ⟨A, B, e1, e2, e3⟩ := ihr key v hh i l r h4 hf hl hr pk pv ph pi pll hlast
        refine ⟨inorderE l0 ++ (k0, v0, i0) :: A, B, ?_, ?_, ?_⟩
        · rw [inorderE, e1]
          simp [List.append_assoc]
        · rw [DeleteItem.eq_def]
          simp only [show ¬ key < k0 by omega, if_false, gt_iff_lt, hc, if_true]
          rw [inorderE, e2]
          simp [List.append_assoc]
        · rw [DeleteItem.eq_def]
          simp only [show ¬ key < k0 by omega, if_false, gt_iff_lt, hc, if_true]
          exact e3

/-! ## The find-or-insert accessor -/

theorem opIndex_found (m : AVLmap) (key : Int) (hf : FindNode m.mRoot key ≠ Tree.nil) :
    opIndex m key = m := by
  rw [opIndex, if_pos hf]

theorem opIndex_not_found (m : AVLmap) (key : Int) (hf : FindNode m.mRoot key = Tree.nil) :
    opIndex m key = ⟨(BalanceTree (InsertItem m.mRoot none key 0 m.nextId).1
      (InsertItem m.mRoot none key 0 m.nextId).2.reverse true).tree,
      m.size_ + 1, m.nextId + 1⟩ := by
  rw [opIndex, if_neg (by simp [hf])]

theorem bstB_opIndex (m : AVLmap) (key : Int) (hb : bstB m.mRoot = true) :
    bstB (opIndex m key).mRoot = true := by
  by_cases hf : FindNode m.mRoot key = Tree.nil
  · rw [opIndex_not_found m key hf]
    have h1 : bstB (InsertItem m.mRoot none key 0 m.nextId).1 = true :=
      bstB_insertItem m.mRoot none key 0 m.nextId hb
    show bstB (BalanceTree (InsertItem m.mRoot none key 0 m.nextId).1
      (InsertItem m.mRoot none key 0 m.nextId).2.reverse true).tree = true
    rw [bstB_iff_sorted, inorderKeys_balanceTree, ← bstB_iff_sorted]
    exact h1
  · rw [opIndex_found m key hf]
    exact hb

theorem mem_keys_opIndex (m : AVLmap) (key x : Int) :
    x ∈ inorderKeys (opIndex m key).mRoot ↔ x = key ∨ x ∈ inorderKeys m.mRoot := by
  by_cases hf : FindNode m.mRoot key = Tree.nil
  · rw [opIndex_not_found m key hf]
    show x ∈ inorderKeys (BalanceTree (InsertItem m.mRoot none key 0 m.nextId).1
      (InsertItem m.mRoot none key 0 m.nextId).2.reverse true).tree ↔ _
    rw [inorderKeys_balanceTree]
    exact mem_keys_insertItem m.mRoot none key 0 m.nextId x
  · rw [opIndex_found m key hf]
    have hmem := mem_of_findNode_ne_nil m.mRoot key hf
    constructor
    · exact Or.inr
    · rintro (rfl | hx)
      · exact hmem
      · exact hx

/-! ## Claim theorems: C6, C7 -/

/-- C6: for every map satisfying the BST invariant and every absent key,
the first `operator[]` call inserts exactly one node holding that key
with a default-constructed value (0) and increments `size_` by one, and
any later call with the same key returns the map unchanged (so repeated
calls never create a second node with the key and never change the
size). -/
theorem C6_opIndex_find_or_insert_idempotent (m : AVLmap) (key : Int)
    (hb : bstB m.mRoot = true) (habs : FindNode m.mRoot key = Tree.nil) :
    (opIndex m key).size_ = m.size_ + 1 ∧
    valueAt (opIndex m key).mRoot key = some 0 ∧
    (inorderKeys (opIndex m key).mRoot).count key = 1 ∧
    opIndex (opIndex m key) key = opIndex m key := by
  have hfresh : key ∉ inorderKeys m.mRoot := fun hm =>
    findNode_ne_nil_of_mem m.mRoot key hb hm habs
  have hbst' : bstB (opIndex m key).mRoot = true := bstB_opIndex m key hb
  have hmem' : key ∈ inorderKeys (opIndex m key).mRoot :=
    (mem_keys_opIndex m key key).mpr (Or.inl rfl)
  have hentry : (key, 0, m.nextId) ∈ inorderE (opIndex m key).mRoot := by
    rw [opIndex_not_found m key habs]
    show (key, 0, m.nextId) ∈ inorderE (BalanceTree (InsertItem m.mRoot none key 0 m.nextId).1
      (InsertItem m.mRoot none key 0 m.nextId).2.reverse true).tree
    rw [inorderE_balanceTree]
    exact (entry_insertItem m.mRoot none key 0 m.nextId _ hfresh).mpr (Or.inl rfl)
  refine ⟨?_, ?_, ?_, ?_⟩
  · rw [opIndex_not_found m key habs]
  · rw [valueAt_eq_entryAt, entryAt_of_mem (opIndex m key).mRoot key 0 m.nextId hbst' hentry]
    rfl
  · exact List.count_eq_one_of_mem
      (((bstB_iff_sorted _).mp hbst').nodup) hmem'
  · exact opIndex_found (opIndex m key) key
      (findNode_ne_nil_of_mem (opIndex m key).mRoot key hbst' hmem')

/-- Witness for C6: inserting key 5 into the empty map. -/
theorem C6_opIndex_find_or_insert_witness :
    bstB (mkEmpty).mRoot = true ∧ FindNode (mkEmpty).mRoot 5 = Tree.nil ∧
    ((opIndex mkEmpty 5).size_ = (mkEmpty).size_ + 1 ∧
     valueAt (opIndex mkEmpty 5).mRoot 5 = some 0 ∧
     (inorderKeys (opIndex mkEmpty 5).mRoot).count 5 = 1 ∧
     opIndex (opIndex mkEmpty 5) 5 = opIndex mkEmpty 5) :=
  ⟨rfl, rfl, C6_opIndex_find_or_insert_idempotent mkEmpty 5 rfl rfl⟩

/-- C7: for every map satisfying the BST invariant whose `size_` equals
its node count, `erase` given the end iterator (a null node, which is
what `find` returns for an absent key) is a safe no-op returning the map
unchanged, and `erase` of a valid non-end iterator (a present key) calls
`FreeNode` exactly once, decreasing `size_` by exactly 1. -/
theorem C7_erase_noop_on_end_decrements_size_by_one (m : AVLmap) (key : Int)
    (hb : bstB m.mRoot = true) (hsz : m.size_ = (inorderKeys m.mRoot).length) :
    (FindNode m.mRoot key = Tree.nil → eraseKey m key = m) ∧
    (FindNode m.mRoot key ≠ Tree.nil →
      (DeleteItem m.mRoot key).2 = 1 ∧ (eraseKey m key).size_ + 1 = m.size_) := by
  constructor
  · intro hf
    rw [eraseKey, if_pos hf]
  · intro hf
    have hmem := mem_of_findNode_ne_nil m.mRoot key hf
    have hcnt := deleteItem_count m.mRoot key hb hmem
    refine ⟨hcnt, ?_⟩
    rw [eraseKey, if_neg hf]
    show m.size_ - (DeleteItem m.mRoot key).2 + 1 = m.size_
    have hlen : 1 ≤ m.size_ := by
      rw [hsz]
      exact List.length_pos.mpr (List.ne_nil_of_mem hmem)
    rw [hcnt]
    omega

/-- Witness for C7: the map with keys 1 and 2, probed at the absent key 9
(no-op) and at the present key 2 (size drops from 2 to 1). -/
theorem C7_erase_noop_witness :
    bstB (List.foldl opIndex mkEmpty [1, 2]).mRoot = true ∧
    (List.foldl opIndex mkEmpty [1, 2]).size_ =
      (inorderKeys (List.foldl opIndex mkEmpty [1, 2]).mRoot).length ∧
    ((FindNode (List.foldl opIndex mkEmpty [1, 2]).mRoot 9 = Tree.nil →
        eraseKey (List.foldl opIndex mkEmpty [1, 2]) 9 =
          List.foldl opIndex mkEmpty [1, 2]) ∧
      (FindNode (List.foldl opIndex mkEmpty [1, 2]).mRoot 9 ≠ Tree.nil →
        (DeleteItem (List.foldl opIndex mkEmpty [1, 2]).mRoot 9).2 = 1 ∧
        (eraseKey (List.foldl opIndex mkEmpty [1, 2]) 9).size_ + 1 =
          (List.foldl opIndex mkEmpty [1, 2]).size_)) ∧
    ((FindNode (List.foldl opIndex mkEmpty [1, 2]).mRoot 2 = Tree.nil →
        eraseKey (List.foldl opIndex mkEmpty [1, 2]) 2 =
          List.foldl opIndex mkEmpty [1, 2]) ∧
      (FindNode (List.foldl opIndex mkEmpty [1, 2]).mRoot 2 ≠ Tree.nil →
        (DeleteItem (List.foldl opIndex mkEmpty [1, 2]).mRoot 2).2 = 1 ∧
        (eraseKey (List.foldl opIndex mkEmpty [1, 2]) 2).size_ + 1 =
          (List.foldl opIndex mkEmpty [1, 2]).size_)) :=
  ⟨by decide, by decide,
    C7_erase_noop_on_end_decrements_size_by_one _ 9 (by decide) (by decide),
    C7_erase_noop_on_end_decrements_size_by_one _ 2 (by decide) (by decide)⟩

/-! ## Iterator paths: validity, ends and successor steps -/

theorem pathsOf_ne_nil (t : Tree) (h : t ≠ Tree.nil) : pathsOf t ≠ [] := by
  cases t with
  | nil => exact absurd rfl h
  | node k v hh i l r => simp [pathsOf]

theorem pathsOf_valid : ∀ (t : Tree), ∀ p ∈ pathsOf t,
    ∃ nk nv nh ni nl nr, subtreeAt t p = some (Tree.node nk nv nh ni nl nr) := by
  intro t
  induction t with
  | nil => simp [pathsOf]
  | node k v hh i l r ihl ihr =>
      intro p hp
      simp only [pathsOf, List.mem_append, List.mem_map, List.mem_singleton] at hp
      rcases hp with (⟨a, ha, rfl⟩ | rfl) | ⟨a, ha, rfl⟩
      · obtain ⟨nk, nv, nh, ni, nl, nr, hs⟩ := ihl a ha
        exact ⟨nk, nv, nh, ni, nl, nr, hs⟩
      · exact ⟨k, v, hh, i, l, r, rfl⟩
      · obtain ⟨nk, nv, nh, ni, nl, nr, hs⟩ := ihr a ha
        exact ⟨nk, nv, nh, ni, nl, nr, hs⟩

theorem head?_pathsOf : ∀ t : Tree, t ≠ Tree.nil →
    (pathsOf t).head? = some (firstPath t) := by
  intro t
  induction t with
  | nil => intro h; exact absurd rfl h
  | node k v hh i l r ihl ihr =>
      intro _
      cases l with
      | nil => simp [pathsOf, firstPath]
      | node lk lv lh li ll lr =>
          have hne : pathsOf (Tree.node lk lv lh li ll lr) ≠ [] :=
            pathsOf_ne_nil _ (by simp)
          rw [pathsOf, List.head?_append_of_ne_nil _ (by simp [hne]),
            List.head?_append_of_ne_nil _ (by simp [hne]), List.head?_map,
            ihl (by simp)]
          simp [firstPath]

theorem getLast?_pathsOf : ∀ t : Tree, t ≠ Tree.nil →
    (pathsOf t).getLast? = some (lastPath t) := by
  intro t
  induction t with
  | nil => intro h; exact absurd rfl h
  | node k v hh i l r ihl ihr =>
      intro _
      cases r with
      | nil =>
          rw [pathsOf]
          simp [pathsOf, lastPath, List.getLast?_concat]
      | node rk rv rh ri rl rr =>
          have hne : pathsOf (Tree.node rk rv rh ri rl rr) ≠ [] :=
            pathsOf_ne_nil _ (by simp)
          rw [pathsOf, List.getLast?_append_of_ne_nil _ (by simp [hne]),
            List.getLast?_map, ihr (by simp)]
          simp [lastPath]

theorem lastPath_allR : ∀ t : Tree, ∀ d ∈ lastPath t, d = Dir.R := by
  intro t
  induction t with
  | nil => simp [lastPath]
  | node k v hh i l r ihl ihr =>
      cases r with
      | nil => simp [lastPath]
      | node rk rv rh ri rl rr =>
          intro d hd
          simp only [lastPath, List.mem_cons] at hd
          rcases hd with rfl | hd
          · rfl
          · exact ihr d hd

theorem firstPath_allL : ∀ t : Tree, ∀ d ∈ firstPath t, d = Dir.L := by
  intro t
  induction t with
  | nil => simp [firstPath]
  | node k v hh i l r ihl ihr =>
      cases l with
      | nil => simp [firstPath]
      | node lk lv lh li ll lr =>
          intro d hd
          simp only [firstPath, List.mem_cons] at hd
          rcases hd with rfl | hd
          · rfl
          · exact ihl d hd

theorem upLoop_none_of_allR : ∀ p : List Dir, (∀ d ∈ p, d = Dir.R) → upLoop p = none := by
  intro p
  induction p with
  | nil => intro _; rfl
  | cons d rest ih =>
      intro h
      have hd : d = Dir.R := h d (by simp)
      have hrest := ih (fun x hx => h x (by simp [hx]))
      simp only [upLoop]
      rw [hrest, hd]
      rfl

theorem downLoop_none_of_allL : ∀ p : List Dir, (∀ d ∈ p, d = Dir.L) → downLoop p = none := by
  intro p
  induction p with
  | nil => intro _; rfl
  | cons d rest ih =>
      intro h
      have hd : d = Dir.L := h d (by simp)
      have hrest := ih (fun x hx => h x (by simp [hx]))
      simp only [downLoop]
      rw [hrest, hd]
      rfl

theorem subtreeAt_lastPath : ∀ t : Tree, t ≠ Tree.nil →
    ∃ k v hh i l, subtreeAt t (lastPath t) = some (Tree.node k v hh i l Tree.nil) := by
  intro t
  induction t with
  | nil => intro h; exact absurd rfl h
  | node k v hh i l r ihl ihr =>
      intro _
      cases r with
      | nil => exact ⟨k, v, hh, i, l, rfl⟩
      | node rk rv rh ri rl rr =>
          obtain ⟨a, b, c, d, e, hs⟩ := ihr (by simp)
          exact ⟨a, b, c, d, e, by simpa [lastPath, subtreeAt] using hs⟩

theorem subtreeAt_firstPath : ∀ t : Tree, t ≠ Tree.nil →
    ∃ k v hh i r, subtreeAt t (firstPath t) = some (Tree.node k v hh i Tree.nil r) := by
  intro t
  induction t with
  | nil => intro h; exact absurd rfl h
  | node k v hh i l r ihl ihr =>
      intro _
      cases l with
      | nil => exact ⟨k, v, hh, i, r, rfl⟩
      | node lk lv lh li ll lr =>
          obtain ⟨a, b, c, d, e, hs⟩ := ihl (by simp)
          exact ⟨a, b, c, d, e, by simpa [firstPath, subtreeAt] using hs⟩

theorem increment_lastPath (t : Tree) (h : t ≠ Tree.nil) :
    increment t (lastPath t) = none := by
  obtain ⟨k, v, hh, i, l, hs⟩ := subtreeAt_lastPath t h
  unfold increment
  rw [hs]
  exact upLoop_none_of_allR _ (lastPath_allR t)

theorem decrement_firstPath (t : Tree) (h : t ≠ Tree.nil) :
    decrement t (firstPath t) = none := by
  obtain ⟨k, v, hh, i, r, hs⟩ := subtreeAt_firstPath t h
  unfold decrement
  rw [hs]
  exact downLoop_none_of_allL _ (firstPath_allL t)

theorem increment_cons_L (k v hh : Int) (i : Nat) (l r : Tree) (p : List Dir)
    (nk nv nh : Int) (ni : Nat) (nl nr : Tree)
    (hs : subtreeAt l p = some (Tree.node nk nv nh ni nl nr)) :
    increment (Tree.node k v hh i l r) (Dir.L :: p) =
      (match increment l p with
       | some q => some (Dir.L :: q)
       | none => some []) := by
  unfold increment
  have hsub : subtreeAt (Tree.node k v hh i l r) (Dir.L :: p) = subtreeAt l p := rfl
  rw [hsub, hs]
  cases nr with
  | nil =>
      simp only [upLoop]
      cases hq : upLoop p <;> simp [hq]
  | node a b c d e f => simp

theorem increment_cons_R (k v hh : Int) (i : Nat) (l r : Tree) (p : List Dir)
    (nk nv nh : Int) (ni : Nat) (nl nr : Tree)
    (hs : subtreeAt r p = some (Tree.node nk nv nh ni nl nr)) :
    increment (Tree.node k v hh i l r) (Dir.R :: p) =
      (increment r p).map (Dir.R :: ·) := by
  unfold increment
  have hsub : subtreeAt (Tree.node k v hh i l r) (Dir.R :: p) = subtreeAt r p := rfl
  rw [hsub, hs]
  cases nr with
  | nil =>
      simp only [upLoop]
      cases hq : upLoop p <;> simp [hq]
  | node a b c d e f => simp

theorem increment_root_right (k v hh : Int) (i : Nat) (l : Tree)
    (rk rv rh : Int) (ri : Nat) (rl rr : Tree) :
    increment (Tree.node k v hh i l (Tree.node rk rv rh ri rl rr)) [] =
      some (Dir.R :: firstPath (Tree.node rk rv rh ri rl rr)) := by
  unfold increment
  rfl

theorem decrement_cons_R (k v hh : Int) (i : Nat) (l r : Tree) (p : List Dir)
    (nk nv nh : Int) (ni : Nat) (nl nr : Tree)
    (hs : subtreeAt r p = some (Tree.node nk nv nh ni nl nr)) :
    decrement (Tree.node k v hh i l r) (Dir.R :: p) =
      (match decrement r p with
       | some q => some (Dir.R :: q)
       | none => some []) := by
  unfold decrement
  have hsub : subtreeAt (Tree.node k v hh i l r) (Dir.R :: p) = subtreeAt r p := rfl
  rw [hsub, hs]
  cases nl with
  | nil =>
      simp only [downLoop]
      cases hq : downLoop p <;> simp [hq]
  | node a b c d e f => simp

theorem decrement_cons_L (k v hh : Int) (i : Nat) (l r : Tree) (p : List Dir)
    (nk nv nh : Int) (ni : Nat) (nl nr : Tree)
    (hs : subtreeAt l p = some (Tree.node nk nv nh ni nl nr)) :
    decrement (Tree.node k v hh i l r) (Dir.L :: p) =
      (decrement l p).map (Dir.L :: ·) := by
  unfold decrement
  have hsub : subtreeAt (Tree.node k v hh i l r) (Dir.L :: p) = subtreeAt l p := rfl
  rw [hsub, hs]
  cases nl with
  | nil =>
      simp only [downLoop]
      cases hq : downLoop p <;> simp [hq]
  | node a b c d e f => simp

theorem decrement_root_left (k v hh : Int) (i : Nat) (r : Tree)
    (lk lv lh : Int) (li : Nat) (ll lr : Tree) :
    decrement (Tree.node k v hh i (Tree.node lk lv lh li ll lr) r) [] =
      some (Dir.L :: lastPath (Tree.node lk lv lh li ll lr)) := by
  unfold decrement
  rfl

/-! ## The in-order chains of successor and predecessor steps -/

theorem chain_increment : ∀ t : Tree,
    List.Chain' (fun p q => increment t p = some q) (pathsOf t) := by
  intro t
  induction t with
  | nil => simp [pathsOf]
  | node k v hh i l r ihl ihr =>
      rw [pathsOf]
      apply List.Chain'.append
      apply List.Chain'.append
      · rw [List.chain'_map]
        apply chain'_imp_of_mem _ ?_ ihl
        intro a ha b _ hab
        obtain ⟨nk, nv, nh, ni, nl, nr, hs⟩ := pathsOf_valid l a ha
        rw [increment_cons_L k v hh i l r a nk nv nh ni nl nr hs, hab]
      · exact List.chain'_singleton _
      · intro x hx y hy
        simp at hy
        subst hy
        have hPL : pathsOf l ≠ [] := by
          intro h0
          rw [h0] at hx
          simp at hx
        have hlnil : l ≠ Tree.nil := by
          intro h0
          rw [h0] at hPL
          exact hPL rfl
        rw [List.getLast?_map, getLast?_pathsOf l hlnil] at hx
        simp at hx
        subst hx
        obtain ⟨nk, nv, nh, ni, nl, hs⟩ := subtreeAt_lastPath l hlnil
        rw [increment_cons_L k v hh i l r (lastPath l) nk nv nh ni nl Tree.nil hs,
          increment_lastPath l hlnil]
      · rw [List.chain'_map]
        apply chain'_imp_of_mem _ ?_ ihr
        intro a ha b _ hab
        obtain ⟨nk, nv, nh, ni, nl, nr, hs⟩ := pathsOf_valid r a ha
        rw [increment_cons_R k v hh i l r a nk nv nh ni nl nr hs, hab]
        rfl
      · intro x hx y hy
        have hPR : pathsOf r ≠ [] := by
          intro h0
          rw [h0] at hy
          simp at hy
        have hrnil : r ≠ Tree.nil := by
          intro h0
          rw [h0] at hPR
          exact hPR rfl
        rw [List.head?_map, head?_pathsOf r hrnil] at hy
        simp at hy
        subst hy
        rw [List.getLast?_append_of_ne_nil _ (by simp)] at hx
        simp at hx
        subst hx
        cases r with
        | nil => exact absurd rfl hrnil
        | node rk rv rh ri rl rr =>
            exact increment_root_right k v hh i l rk rv rh ri rl rr

theorem chain_decrement : ∀ t : Tree,
    List.Chain' (fun p q => decrement t p = some q) (pathsOf t).reverse := by
  intro t
  induction t with
  | nil => simp [pathsOf]
  | node k v hh i l r ihl ihr =>
      have hrev : (pathsOf (Tree.node k v hh i l r)).reverse =
          ((pathsOf r).reverse.map (Dir.R :: ·) ++ [([] : List Dir)]) ++
            (pathsOf l).reverse.map (Dir.L :: ·) := by
        rw [pathsOf]
        simp [List.append_assoc]
      rw [hrev]
      apply List.Chain'.append
      apply List.Chain'.append
      · rw [List.chain'_map]
        apply chain'_imp_of_mem _ ?_ ihr
        intro a ha b _ hab
        obtain ⟨nk, nv, nh, ni, nl, nr, hs⟩ :=
          pathsOf_valid r a (List.mem_reverse.mp ha)
        rw [decrement_cons_R k v hh i l r a nk nv nh ni nl nr hs, hab]
      · exact List.chain'_singleton _
      · intro x hx y hy
        simp at hy
        subst hy
        have hPR : (pathsOf r).reverse ≠ [] := by
          intro h0
          rw [h0] at hx
          simp at hx
        have hrnil : r ≠ Tree.nil := by
          intro h0
          rw [h0] at hPR
          exact hPR (by simp [pathsOf])
        rw [List.getLast?_map, List.getLast?_reverse, head?_pathsOf r hrnil] at hx
        simp at hx
        subst hx
        obtain ⟨nk, nv, nh, ni, nr, hs⟩ := subtreeAt_firstPath r hrnil
        rw [decrement_cons_R k v hh i l r (firstPath r) nk nv nh ni Tree.nil nr hs,
          decrement_firstPath r hrnil]
      · rw [List.chain'_map]
        apply chain'_imp_of_mem _ ?_ ihl
        intro a ha b _ hab
        obtain ⟨nk, nv, nh, ni, nl, nr, hs⟩ :=
          pathsOf_valid l a (List.mem_reverse.mp ha)
        rw [decrement_cons_L k v hh i l r a nk nv nh ni nl nr hs, hab]
        rfl
      · intro x hx y hy
        have hPL : (pathsOf l).reverse ≠ [] := by
          intro h0
          rw [h0] at hy
          simp at hy
        have hlnil : l ≠ Tree.nil := by
          intro h0
          rw [h0] at hPL
          exact hPL (by simp [pathsOf])
        rw [List.head?_map, List.head?_reverse, getLast?_pathsOf l hlnil] at hy
        simp at hy
        subst hy
        rw [List.getLast?_append_of_ne_nil _ (by simp)] at hx
        simp at hx
        subst hx
        cases l with
        | nil => exact absurd rfl hlnil
        | node lk lv lh li ll lr =>
            exact decrement_root_left k v hh i r lk lv lh li ll lr

/-! ## Iteration produces the in-order key sequence -/

theorem map_keyD_pathsOf : ∀ t : Tree, (pathsOf t).map (keyD t) = inorderKeys t := by
  intro t
  induction t with
  | nil => simp [pathsOf, inorderKeys_nil]
  | node k v hh i l r ihl ihr =>
      rw [pathsOf, inorderKeys_node]
      have hL : (keyD (Tree.node k v hh i l r)) ∘ (Dir.L :: ·) = keyD l := by
        funext p
        rfl
      have hR : (keyD (Tree.node k v hh i l r)) ∘ (Dir.R :: ·) = keyD r := by
        funext p
        rfl
      have hk : keyD (Tree.node k v hh i l r) [] = k := rfl
      simp only [List.map_append, List.map_map, hL, hR, List.map_cons, List.map_nil, hk,
        ihl, ihr]
      simp [List.append_assoc]

theorem length_pathsOf : ∀ t : Tree, (pathsOf t).length = count t := by
  intro t
  induction t with
  | nil => rfl
  | node k v hh i l r ihl ihr =>
      simp [pathsOf, count, ihl, ihr]
      omega

theorem walkKeys_of_chain (t : Tree) (step : List Dir → Option (List Dir)) :
    ∀ ps : List (List Dir), List.Chain' (fun p q => step p = some q) ps →
    (∀ x ∈ ps.getLast?, step x = none) →
    ∀ p0, ps.head? = some p0 →
    walkKeys t step (some p0) ps.length = ps.map (keyD t) := by
  intro ps
  induction ps with
  | nil => intro _ _ p0 h; simp at h
  | cons p rest ih =>
      intro hch hend p0 hh
      have hp0 : p0 = p := by simpa using hh.symm
      subst hp0
      cases rest with
      | nil => simp [walkKeys]
      | cons q rest' =>
          rw [List.chain'_cons] at hch
          have : walkKeys t step (some p0) (q :: rest').length.succ =
              keyD t p0 :: walkKeys t step (step p0) (q :: rest').length := rfl
          rw [List.length_cons, this, hch.1]
          rw [ih hch.2 (by simpa using hend) q rfl]
          simp

theorem iterFwd_eq_inorder (t : Tree) : iterFwdKeys t = inorderKeys t := by
  cases t with
  | nil => rfl
  | node k v hh i l r =>
      have hne : (Tree.node k v hh i l r) ≠ Tree.nil := by simp
      have hbegin : beginIter (Tree.node k v hh i l r) =
          some (firstPath (Tree.node k v hh i l r)) := rfl
      unfold iterFwdKeys
      rw [hbegin, ← length_pathsOf]
      rw [walkKeys_of_chain _ _ (pathsOf _) (chain_increment _) ?hend _ (head?_pathsOf _ hne)]
      · exact map_keyD_pathsOf _
      case hend =>
        intro x hx
        rw [getLast?_pathsOf _ hne] at hx
        simp at hx
        subst hx
        exact increment_lastPath _ hne

theorem iterBwd_eq_reverse_inorder (t : Tree) :
    iterBwdKeys t = (inorderKeys t).reverse := by
  cases t with
  | nil => rfl
  | node k v hh i l r =>
      have hne : (Tree.node k v hh i l r) ≠ Tree.nil := by simp
      have hlast : lastIter (Tree.node k v hh i l r) =
          some (lastPath (Tree.node k v hh i l r)) := rfl
      have hlen : (pathsOf (Tree.node k v hh i l r)).reverse.length =
          count (Tree.node k v hh i l r) := by
        rw [List.length_reverse, length_pathsOf]
      have hhead : (pathsOf (Tree.node k v hh i l r)).reverse.head? =
          some (lastPath (Tree.node k v hh i l r)) := by
        rw [List.head?_reverse]
        exact getLast?_pathsOf _ hne
      unfold iterBwdKeys
      rw [hlast, ← hlen]
      rw [walkKeys_of_chain _ _ (pathsOf _).reverse (chain_decrement _) ?hend _ hhead]
      · rw [List.map_reverse, map_keyD_pathsOf]
      case hend =>
        intro x hx
        rw [List.getLast?_reverse, head?_pathsOf _ hne] at hx
        simp at hx
        subst hx
        exact decrement_firstPath _ hne

theorem bstB_foldl_opIndex (ks : List Int) :
    bstB (List.foldl opIndex mkEmpty ks).mRoot = true := by
  have main : ∀ (l : List Int) (m : AVLmap), bstB m.mRoot = true →
      bstB (List.foldl opIndex m l).mRoot = true := by
    intro l
    induction l with
    | nil => intro m h; simpa using h
    | cons a l ih => intro m h; simpa using ih (opIndex m a) (bstB_opIndex m a h)
  exact main ks mkEmpty rfl

theorem mem_keys_foldl_opIndex (ks : List Int) (x : Int) :
    x ∈ inorderKeys (List.foldl opIndex mkEmpty ks).mRoot ↔ x ∈ ks := by
  have main : ∀ (l : List Int) (m : AVLmap) (x : Int),
      x ∈ inorderKeys (List.foldl opIndex m l).mRoot ↔
        x ∈ l ∨ x ∈ inorderKeys m.mRoot := by
    intro l
    induction l with
    | nil => intro m x; simp
    | cons a l ih =>
        intro m x
        rw [List.foldl_cons]
        rw [ih (opIndex m a) x, mem_keys_opIndex]
        simp only [List.mem_cons]
        tauto
  rw [main ks mkEmpty x]
  simp [inorderKeys_nil, mkEmpty]

/-! ## Claim theorem: C8 -/

/-- C8: for every list of inserted keys (starting from an empty map),
iterating from `begin()` to `end()` with the iterator increment
(`Node::increment`) yields exactly the in-order key sequence, which is
strictly ascending and contains exactly the inserted keys; iterating
backward from `last(root)` with `Node::decrement` yields the reverse of
that sequence, which is strictly descending. -/
theorem C8_iteration_yields_sorted_keys (ks : List Int) :
    (let t := (List.foldl opIndex mkEmpty ks).mRoot
     iterFwdKeys t = inorderKeys t ∧
     (iterFwdKeys t).Sorted (· < ·) ∧
     (∀ x, x ∈ iterFwdKeys t ↔ x ∈ ks) ∧
     iterBwdKeys t = (iterFwdKeys t).reverse ∧
     (iterBwdKeys t).Sorted (· > ·)) := by
  have hb := bstB_foldl_opIndex ks
  have hsorted : (inorderKeys (List.foldl opIndex mkEmpty ks).mRoot).Sorted (· < ·) :=
    (bstB_iff_sorted _).mp hb
  have hfwd := iterFwd_eq_inorder (List.foldl opIndex mkEmpty ks).mRoot
  have hbwd := iterBwd_eq_reverse_inorder (List.foldl opIndex mkEmpty ks).mRoot
  refine ⟨hfwd, ?_, ?_, ?_, ?_⟩
  · rw [hfwd]
    exact hsorted
  · intro x
    rw [hfwd]
    exact mem_keys_foldl_opIndex ks x
  · rw [hbwd, hfwd]
  · rw [hbwd]
    simp only [List.Sorted]
    rw [List.pairwise_reverse]
    exact hsorted

/-! ## Claim theorem: C10 -/

theorem erase_middle {α : Type} [DecidableEq α] {X Y : List α} {a : α}
    (h : (X ++ a :: Y).Nodup) :
    (X ++ a :: Y).erase a = X ++ Y ∧ a ∉ X ++ Y := by
  obtain ⟨h1, h2, hd⟩ := List.nodup_append.mp h
  have haX : a ∉ X := fun hm => hd hm (List.mem_cons_self a Y)
  have haY : a ∉ Y := (List.nodup_cons.mp h2).1
  constructor
  · rw [List.erase_append_right _ haX, List.erase_cons_head]
  · intro hm
    rcases List.mem_append.mp hm with hm | hm
    · exact haX hm
    · exact haY hm

/-- C10: when erase is called on a node with two non-null children (here:
the node `FindNode` returns for `key`, with identity `i`), that node
object is not the one destroyed.  Its key and value are overwritten in
place with those of its in-order predecessor (`tree->decrement()`, which
for a node with a left child is `left->last()`, embedded as `lastNode`),
and the predecessor node (identity `pi`) is the one physically freed:
exactly one `FreeNode` call happens, the identity `pi` disappears from
the tree (the id sequence is the old one with `pi` removed), and the
node found under the predecessor's key afterwards carries the
predecessor's value together with the erased node's original identity
`i`, which therefore survives. -/
theorem C10_two_child_erase_keeps_node_frees_predecessor
    (t : Tree) (key v hh : Int) (i : Nat) (l r : Tree)
    (pk pv ph : Int) (pi : Nat) (pll : Tree)
    (hb : bstB t = true) (hnd : (inorderIds t).Nodup)
    (hf : FindNode t key = Tree.node key v hh i l r)
    (hl : l ≠ Tree.nil) (hr : r ≠ Tree.nil)
    (hlast : lastNode l = Tree.node pk pv ph pi pll Tree.nil) :
    (DeleteItem t key).2 = 1 ∧
    pi ∉ inorderIds (DeleteItem t key).1 ∧
    inorderIds (DeleteItem t key).1 = (inorderIds t).erase pi ∧
    entryAt (DeleteItem t key).1 pk = some (pv, i) ∧
    i ∈ inorderIds (DeleteItem t key).1 := by
  obtain ⟨A, B, e1, e2, e3⟩ :=
    deleteItem_two_children t key v hh i l r hb hf hl hr pk pv ph pi pll hlast
  obtain ⟨pk', pv', ph', pi', pll', hL, hG⟩ := lastNode_getLast l hl
  rw [hlast] at hL
  injection hL with f1 f2 f3 f4 f5 f6
  subst f1; subst f2; subst f4
  have hLsplit : (inorderE l).dropLast ++ [(pk, pv, pi)] = inorderE l :=
    List.dropLast_append_getLast? _ (Option.mem_def.mpr hG)
  have hidT : inorderIds t =
      (A.map (·.2.2) ++ ((inorderE l).dropLast).map (·.2.2)) ++
        pi :: i :: ((inorderE r).map (·.2.2) ++ B.map (·.2.2)) := by
    unfold inorderIds
    rw [e1, ← hLsplit]
    simp [List.append_assoc]
  have hidT' : inorderIds (DeleteItem t key).1 =
      (A.map (·.2.2) ++ ((inorderE l).dropLast).map (·.2.2)) ++
        i :: ((inorderE r).map (·.2.2) ++ B.map (·.2.2)) := by
    unfold inorderIds
    rw [e2]
    simp [List.append_assoc]
  rw [hidT] at hnd
  obtain ⟨her, hnm⟩ := erase_middle hnd
  have hmem' : (pk, pv, i) ∈ inorderE (DeleteItem t key).1 := by
    rw [e2]
    simp
  have hkT : inorderKeys t =
      (A.map (·.1) ++ ((inorderE l).dropLast).map (·.1)) ++
        pk :: key :: ((inorderE r).map (·.1) ++ B.map (·.1)) := by
    unfold inorderKeys
    rw [e1, ← hLsplit]
    simp [List.append_assoc]
  have hkT' : inorderKeys (DeleteItem t key).1 =
      (A.map (·.1) ++ ((inorderE l).dropLast).map (·.1)) ++
        pk :: ((inorderE r).map (·.1) ++ B.map (·.1)) := by
    unfold inorderKeys
    rw [e2]
    simp [List.append_assoc]
  have hsorted : (inorderKeys t).Sorted (· < ·) := (bstB_iff_sorted t).mp hb
  have hbst' : bstB (DeleteItem t key).1 = true := by
    rw [bstB_iff_sorted, hkT']
    rw [hkT] at hsorted
    exact List.Pairwise.sublist
      (List.Sublist.append_left
        (List.Sublist.cons₂ pk (List.sublist_cons_self key _)) _) hsorted
  refine ⟨e3, ?_, ?_, ?_, ?_⟩
  · rw [hidT']
    exact hnm
  · rw [hidT', hidT, her]
  · exact entryAt_of_mem (DeleteItem t key).1 pk pv i hbst' hmem'
  · rw [hidT']
    simp

/-- Witness for C10: the tree with root 2 and children 1, 3; erasing the
root overwrites it with predecessor 1's entry and frees node 1. -/
theorem C10_two_child_erase_witness :
    (let t := (List.foldl opIndex mkEmpty [2, 1, 3]).mRoot
     bstB t = true ∧ (inorderIds t).Nodup ∧
     FindNode t 2 = Tree.node 2 0 0 0 (Tree.node 1 0 1 1 Tree.nil Tree.nil)
       (Tree.node 3 0 1 2 Tree.nil Tree.nil) ∧
     lastNode (Tree.node 1 0 1 1 Tree.nil Tree.nil) =
       Tree.node 1 0 1 1 Tree.nil Tree.nil ∧
     ((DeleteItem t 2).2 = 1 ∧
      1 ∉ inorderIds (DeleteItem t 2).1 ∧
      inorderIds (DeleteItem t 2).1 = (inorderIds t).erase 1 ∧
      entryAt (DeleteItem t 2).1 1 = some (0, 0) ∧
      0 ∈ inorderIds (DeleteItem t 2).1)) :=
  ⟨by decide, by decide, by decide, by decide,
    C10_two_child_erase_keeps_node_frees_predecessor
      (List.foldl opIndex mkEmpty [2, 1, 3]).mRoot 2 0 0 0
      (Tree.node 1 0 1 1 Tree.nil Tree.nil) (Tree.node 3 0 1 2 Tree.nil Tree.nil)
      1 0 1 1 Tree.nil
      (by decide) (by decide) (by decide) (by decide) (by decide) (by decide)⟩

end AVLVerify
